import Mathlib

/-!
# Verification of the sqorn query-compilation engine

This file gives a shallow embedding of the sqorn query-compilation engine:
the method log, the context reducer, the condition algebra, the clause
generators and the statement assembler, together with proofs of the
behavioural properties stated in the specification.

The repository ships the `where` clause generator as real source:

```
const { conditions } = require('../util')
module.exports = ctx => {
  if (ctx.whr.length === 0) return
  const txt = conditions(ctx, ctx.whr)
  return txt && 'where ' + txt
}
```

That generator is embedded faithfully below (`whereGenSrc`).  The remaining
engine components (context reducer, condition algebra, the other clause
generators and the assembler) are not part of the shipped sources — only
their documentation and ambient type declarations are — so they are
modelled from the specification, as indicated by the doc comments.
-/

deriving instance DecidableEq for Except

namespace Sqorn

/-- Modelled from the spec: an `Argument` literal value.  The shipped code
is JavaScript, so a value is a string, number, boolean, `null`, `undefined`,
or a value wrapped by the raw-text opt-out constructor (`Val.raw`). -/
inductive Val where
  | int (n : Int)
  | str (s : String)
  | bool (b : Bool)
  | null
  | undef
  | raw (t : String)
deriving DecidableEq

/-- Result of the argument-escaping primitive: either a positional
parameter or literal raw text. -/
inductive Escaped where
  | param (v : Val)
  | rawText (t : String)
deriving DecidableEq

/-- Modelled from the spec: the Argument Escaping Primitive
(`classify(value) -> Parameter(value) | Raw(text)`).  The implementation
module is not in the shipped sources; per spec §4.1 the default
classification is `Parameter` and a value is `Raw` exactly when it carries
the explicit opt-out marker produced by the raw-text constructor. -/
def classify : Val → Escaped
  | .raw t => .rawText t
  | v => .param v

/-- A token of fragment text: literal text or a fragment-local positional
placeholder (placeholders are renumbered only at final assembly). -/
inductive Tok where
  | str (s : String)
  | ph
deriving DecidableEq

/-- A fragment: clause text (with locally-relative placeholders) plus the
ordered parameter list (spec §3, `Fragment`). -/
structure Frag where
  text : List Tok
  args : List Val
deriving DecidableEq

/-- A token of final statement text: literal text or a globally numbered
positional placeholder (`$n`). -/
inductive STok where
  | str (s : String)
  | ph (n : Nat)
deriving DecidableEq

/-- The final compiled statement: text with globally numbered placeholders
plus the concatenated argument list (spec §3, `Statement`). -/
structure Stmt where
  text : List STok
  args : List Val
deriving DecidableEq

/-- Modelled from the spec: the `ConditionNode` variant of §3 —
`Leaf(text, args)`, `Not`, `And`, `Or`. -/
inductive CondNode where
  | leaf (f : Frag)
  | not (c : CondNode)
  | and (a b : CondNode)
  | or (a b : CondNode)
deriving DecidableEq

/-- Spec §4.2 operation `negate`. -/
def negate (c : CondNode) : CondNode := .not c

/-- Spec §4.2 operation `conjoin`. -/
def conjoin (a b : CondNode) : CondNode := .and a b

/-- Spec §4.2 operation `disjoin`. -/
def disjoin (a b : CondNode) : CondNode := .or a b

/-- Wrap a fragment in parentheses. -/
def paren (f : Frag) : Frag :=
  { text := .str "(" :: f.text ++ [.str ")"], args := f.args }

/-- The operator at the top of a rendering parent node. -/
inductive POp where
  | pAnd
  | pOr
  | pNot
deriving DecidableEq

/-- Modelled from the spec: whether `render` parenthesizes a child.  A
`Not` child is always parenthesized; an `And`/`Or` child is parenthesized
exactly when its operator differs from the parent's; a leaf is
parenthesized only under `Or` (spec §8 shows the leaf disjunct `(c = ?)`
parenthesized while leaves under `and` stay bare). -/
def needsParens (parent : POp) (child : CondNode) : Bool :=
  match child with
  | .leaf _ => parent == .pOr
  | .not _ => true
  | .and _ _ => parent != .pAnd
  | .or _ _ => parent != .pOr

/-- Modelled from the spec: `render(node) -> Fragment` (spec §4.2) —
walks the tree, emitting parentheses per `needsParens`, concatenating the
children's parameter lists in left-to-right emission order. -/
def render : CondNode → Frag
  | .leaf f => f
  | .not c =>
    let r := render c
    let r := if needsParens .pNot c then paren r else r
    { text := .str "not " :: r.text, args := r.args }
  | .and a b =>
    let ra := render a
    let ra := if needsParens .pAnd a then paren ra else ra
    let rb := render b
    let rb := if needsParens .pAnd b then paren rb else rb
    { text := ra.text ++ .str " and " :: rb.text, args := ra.args ++ rb.args }
  | .or a b =>
    let ra := render a
    let ra := if needsParens .pOr a then paren ra else ra
    let rb := render b
    let rb := if needsParens .pOr b then paren rb else rb
    { text := ra.text ++ .str " or " :: rb.text, args := ra.args ++ rb.args }

/-- Display a fragment's text with `?` for each local placeholder. -/
def tokShow : Tok → String
  | .str s => s
  | .ph => "?"

/-- Concatenated display of a token list. -/
def toksShow : List Tok → String
  | [] => ""
  | t :: ts => tokShow t ++ toksShow ts

/-- The displayed text of a fragment (local placeholders shown as `?`). -/
def fragShow (f : Frag) : String :=
  toksShow f.text

/-- A value appearing in an object-shorthand mapping: either a plain value
or a spliced condition sub-expression. -/
inductive MapVal where
  | val (v : Val)
  | node (c : CondNode)
deriving DecidableEq

/-- Modelled from the spec: a single key/value pair of an object-shorthand
mapping becomes the Leaf `<key> = <placeholder>`; a raw-marked value is
spliced as literal text via `classify`; a value that is itself a condition
node is spliced in directly (spec §4.2). -/
def pairLeaf (k : String) (mv : MapVal) : CondNode :=
  match mv with
  | .node c => c
  | .val v =>
    match classify v with
    | .param v => .leaf { text := [.str (k ++ " = "), .ph], args := [v] }
    | .rawText t => .leaf { text := [.str (k ++ " = " ++ t)], args := [] }

/-- Left fold of `conjoin` over a list of nodes; `none` on the empty
list (an empty mapping yields no condition, spec §4.2 edge case). -/
def conjoinAll : List CondNode → Option CondNode
  | [] => none
  | c :: cs => some (cs.foldl conjoin c)

/-- Left fold of `disjoin` over a list of nodes; `none` on the empty
list (an empty call list yields no condition, spec §4.2 edge case). -/
def disjoinAll : List CondNode → Option CondNode
  | [] => none
  | c :: cs => some (cs.foldl disjoin c)

/-- Modelled from the spec: `fromObjectShorthand(mapping)` — each pair
becomes a leaf, pairs are conjoined in mapping-insertion order; an empty
mapping yields no condition (spec §4.2). -/
def fromObjectShorthand (pairs : List (String × MapVal)) : Option CondNode :=
  conjoinAll (pairs.map fun p => pairLeaf p.1 p.2)

/-- Build the fragment of a tagged-template call: the text parts
interleaved with one placeholder per consumed argument (a JS tagged
template has one more text part than arguments, so a placeholder is
emitted only while arguments remain). -/
def tmplFrag : List String → List Val → Frag
  | [], _ => { text := [], args := [] }
  | p :: ps, [] => { text := .str p :: (tmplFrag ps []).text, args := [] }
  | p :: ps, v :: vs =>
    { text := .str p :: .ph :: (tmplFrag ps vs).text,
      args := v :: (tmplFrag ps vs).args }

/-- Modelled from the spec: `fromRawFragment(textParts, args)` — a raw
template condition becomes a single Leaf (spec §4.2). -/
def fromRawFragment (parts : List String) (args : List Val) : CondNode :=
  .leaf (tmplFrag parts args)

/-- An argument passed to a condition-building (`where`) call: an
object-shorthand mapping, a raw template fragment, a nested condition
node, or an unrecognized value (spec §7, `MalformedCondition`). -/
inductive WhereArg where
  | map (pairs : List (String × MapVal))
  | tmpl (parts : List String) (args : List Val)
  | node (c : CondNode)
  | junk (v : Val)
deriving DecidableEq

/-- Modelled from the spec: the condition contributed by ONE
condition-building call — mapping arguments become shorthand conditions,
raw fragments and nested nodes are taken as such, and the argument
conditions of the call are disjoined in argument order (spec §4.2).
Malformed arguments are rejected earlier, by the reducer; here they
contribute nothing. -/
def whereCallNode (args : List WhereArg) : Option CondNode :=
  disjoinAll (args.filterMap fun a =>
    match a with
    | .map pairs => fromObjectShorthand pairs
    | .tmpl parts vs => some (fromRawFragment parts vs)
    | .node c => some c
    | .junk _ => none)

/-- A method call appended to the builder's log (spec §3, `MethodCall`).
Only the clause kinds the engine compiles are modelled. -/
inductive MethodCall where
  | frm (tables : List String)
  | whr (args : List WhereArg)
  | ret (cols : List String)
  | set (assigns : List (String × Val))
  | insCols (cols : List String)
  | insVal (vals : List Val)
  | insRows (rows : List (List (String × Val)))
  | del
deriving DecidableEq

/-- The statement kind inferred from the method log (spec §3). -/
inductive SKind where
  | select
  | insert
  | update
  | delete
deriving DecidableEq

/-- The compile-time error taxonomy (spec §7). -/
inductive CompileError where
  | conflictingStatementKind
  | arityMismatch
  | emptyStatement
  | malformedCondition
deriving DecidableEq

/-- Modelled from the spec: the `ContextDescriptor` of §3 — one bucket per
clause kind, where-call contributions kept one entry per call, plus the
inferred statement kind. -/
structure Ctx where
  frm : List String
  whr : List (List WhereArg)
  ret : List String
  sets : List (String × Val)
  insCols : List String
  insVals : List (List Val)
  insRows : List (List (String × Val))
  kind : SKind
deriving DecidableEq

/-- The empty context the reducer starts from. -/
def emptyCtx : Ctx :=
  { frm := [], whr := [], ret := [], sets := [], insCols := [],
    insVals := [], insRows := [], kind := .select }

/-- Modelled from the spec: statement-kind transition — a call demanding a
kind succeeds from `select` (the default) or from the same kind, and any
other combination is a `ConflictingStatementKind` error (spec §4.3). -/
def setKind (cur next : SKind) : Except CompileError SKind :=
  if cur = .select ∨ cur = next then .ok next
  else .error .conflictingStatementKind

/-- Is a where-call argument malformed (neither a recognized mapping, raw
fragment, nor nested condition node)? -/
def isJunk : WhereArg → Bool
  | .junk _ => true
  | _ => false

/-- Modelled from the spec: one step of the Context Reducer fold — the
call's arguments are appended to the bucket matching its clause kind, the
statement kind transitions on mutation calls, and a malformed condition
input fails with `MalformedCondition` (spec §4.3, §7). -/
def reduceStep (ctx : Ctx) : MethodCall → Except CompileError Ctx
  | .frm ts => .ok { ctx with frm := ctx.frm ++ ts }
  | .whr args =>
    if args.any isJunk then .error .malformedCondition
    else .ok { ctx with whr := ctx.whr ++ [args] }
  | .ret cols => .ok { ctx with ret := ctx.ret ++ cols }
  | .set assigns => do
    let k ← setKind ctx.kind .update
    .ok { ctx with sets := ctx.sets ++ assigns, kind := k }
  | .insCols cols => do
    let k ← setKind ctx.kind .insert
    .ok { ctx with insCols := ctx.insCols ++ cols, kind := k }
  | .insVal vals => do
    let k ← setKind ctx.kind .insert
    .ok { ctx with insVals := ctx.insVals ++ [vals], kind := k }
  | .insRows rows => do
    let k ← setKind ctx.kind .insert
    .ok { ctx with insRows := ctx.insRows ++ rows, kind := k }
  | .del => do
    let k ← setKind ctx.kind .delete
    .ok { ctx with kind := k }

/-- Fold of the reducer over a log, from a given starting context. -/
def reduceAux (ctx : Ctx) : List MethodCall → Except CompileError Ctx
  | [] => .ok ctx
  | c :: cs => do
    let ctx' ← reduceStep ctx c
    reduceAux ctx' cs

/-- Modelled from the spec: `reduce(methodLog) -> ContextDescriptor`
(spec §4.3). -/
def reduce (log : List MethodCall) : Except CompileError Ctx :=
  reduceAux emptyCtx log

/-- Join a list of strings with a separator. -/
def joinSepStr (sep : String) : List String → String
  | [] => ""
  | [s] => s
  | s :: ss => s ++ sep ++ joinSepStr sep ss

/-- Join fragments with a separator token, concatenating the parameter
lists in emission order. -/
def joinFrags (sep : Tok) : List Frag → Frag
  | [] => { text := [], args := [] }
  | [f] => f
  | f :: fs =>
    { text := f.text ++ sep :: (joinFrags sep fs).text,
      args := f.args ++ (joinFrags sep fs).args }

/-- Renumber fragment-local placeholders sequentially from `k`
(spec §4.5: renumbering happens only at final assembly). -/
def numberToks : List Tok → Nat → List STok
  | [], _ => []
  | .str s :: ts, k => .str s :: numberToks ts k
  | .ph :: ts, k => .ph k :: numberToks ts (k + 1)

/-- Modelled from the spec: `assemble` (spec §4.5) — joins the present
fragments' text with a single space, concatenates their parameter lists in
the same left-to-right order, and rewrites every placeholder to its
sequential final position starting from 1. -/
def assemble (frags : List Frag) : Stmt :=
  let j := joinFrags (.str " ") frags
  { text := numberToks j.text 1, args := j.args }

/-- The per-call condition nodes of the where bucket (calls contributing
no condition are dropped). -/
def whereNodes (whr : List (List WhereArg)) : List CondNode :=
  whr.filterMap whereCallNode

/-- Modelled from the spec: the WHERE clause generator of the fragment
pipeline — no fragment when the bucket is empty or when no call
contributes a condition; otherwise `where ` followed by the per-call
rendered conditions joined with the newline separator (spec §4.2, §4.4). -/
def whereFrag (whr : List (List WhereArg)) : Option Frag :=
  if whr.isEmpty then none
  else
    let f := joinFrags (.str "\x0a") ((whereNodes whr).map render)
    if f.text.isEmpty then none
    else some { text := .str "where " :: f.text, args := f.args }

/-- First-seen-order union of mapping keys: fold one row into the
accumulated column list. -/
def addKeys (acc : List String) (row : List (String × Val)) : List String :=
  row.foldl (fun a kv => if kv.1 ∈ a then a else a ++ [kv.1]) acc

/-- Modelled from the spec: the emitted column set of an object-shorthand
insert — the union of keys across all row mappings in first-seen order
(spec §4.4). -/
def firstSeenKeys (rows : List (List (String × Val))) : List String :=
  rows.foldl addKeys []

/-- First binding of a key in a row mapping. -/
def lookupKey : List (String × Val) → String → Option Val
  | [], _ => none
  | kv :: r, k => if kv.1 = k then some kv.2 else lookupKey r k

/-- One emitted cell of an insert value tuple: the SQL `DEFAULT` marker or
a value. -/
inductive TupleEntry where
  | dflt
  | val (v : Val)
deriving DecidableEq

/-- Modelled from the spec: the tuple entry a row emits for a column — the
`DEFAULT` marker when the key is absent or its value is `undefined`, and
the value itself otherwise (spec §4.4). -/
def entryOf (row : List (String × Val)) (k : String) : TupleEntry :=
  match lookupKey row k with
  | none => .dflt
  | some .undef => .dflt
  | some v => .val v

/-- The value tuple a row emits against a column list. -/
def rowTuple (cols : List String) (row : List (String × Val)) : List TupleEntry :=
  cols.map (entryOf row)

/-- Render one insert cell: `default` for the marker, literal `null` for an
explicit null, spliced text for a raw value, a placeholder otherwise. -/
def cellFrag : TupleEntry → Frag
  | .dflt => { text := [.str "default"], args := [] }
  | .val .null => { text := [.str "null"], args := [] }
  | .val (.raw t) => { text := [.str t], args := [] }
  | .val v => { text := [.ph], args := [v] }

/-- Render one insert value row: the parenthesized comma-joined cells. -/
def rowFrag (cells : List TupleEntry) : Frag :=
  let f := joinFrags (.str ", ") (cells.map cellFrag)
  { text := .str "(" :: f.text ++ [.str ")"], args := f.args }

/-- Render one SET assignment, classifying the value through the argument
escaping primitive. -/
def setItem (kv : String × Val) : Frag :=
  match classify kv.2 with
  | .param v => { text := [.str (kv.1 ++ " = "), .ph], args := [v] }
  | .rawText t => { text := [.str (kv.1 ++ " = " ++ t)], args := [] }

/-- Modelled from the spec: the SELECT clause generator — `select` plus the
requested columns, defaulting to `*` (spec §4.4). -/
def selectFrag (ctx : Ctx) : Frag :=
  { text := [.str ("select " ++
      (if ctx.ret.isEmpty then "*" else joinSepStr ", " ctx.ret))],
    args := [] }

/-- Modelled from the spec: the FROM clause generator — absent when there
are no from-calls (spec §4.4). -/
def fromFrag (ctx : Ctx) : Option Frag :=
  if ctx.frm.isEmpty then none
  else some { text := [.str ("from " ++ joinSepStr ", " ctx.frm)], args := [] }

/-- Modelled from the spec: the RETURNING clause generator for mutation
statements — absent when there are no return-calls (spec §4.4). -/
def returningFrag (ctx : Ctx) : Option Frag :=
  if ctx.ret.isEmpty then none
  else some { text := [.str ("returning " ++ joinSepStr ", " ctx.ret)], args := [] }

/-- The mutation target table: the first from-call table. -/
def targetTable (ctx : Ctx) : String :=
  match ctx.frm with
  | [] => ""
  | t :: _ => t

/-- Modelled from the spec: the UPDATE/SET clause generator —
`update <table> set <assignments>` (spec §4.4). -/
def updateFrag (ctx : Ctx) : Frag :=
  let f := joinFrags (.str ", ") (ctx.sets.map setItem)
  { text := .str "update " :: .str (targetTable ctx) :: .str " set " :: f.text,
    args := f.args }

/-- Modelled from the spec: the INSERT clause generator —
`insert into <table> (<cols>) values (<row>), ...`; object-shorthand rows
use the first-seen union of keys with default-filling, template-style rows
must match the declared column count or fail with `ArityMismatch`
(spec §4.4). -/
def insertFrag (ctx : Ctx) : Except CompileError Frag :=
  if ctx.insRows.isEmpty then
    if ctx.insVals.any (fun r => r.length != ctx.insCols.length) then
      .error .arityMismatch
    else
      let rows := joinFrags (.str ", ")
        (ctx.insVals.map fun r => rowFrag (r.map TupleEntry.val))
      .ok { text := .str "insert into " :: .str (targetTable ctx) ::
              .str " (" :: .str (joinSepStr ", " ctx.insCols) ::
              .str ") values " :: rows.text,
            args := rows.args }
  else
    let cols := firstSeenKeys ctx.insRows
    let rows := joinFrags (.str ", ")
      (ctx.insRows.map fun r => rowFrag (rowTuple cols r))
    .ok { text := .str "insert into " :: .str (targetTable ctx) ::
            .str " (" :: .str (joinSepStr ", " cols) ::
            .str ") values " :: rows.text,
          args := rows.args }

/-- Turn an optional fragment into its contribution list. -/
def optList : Option Frag → List Frag
  | none => []
  | some f => [f]

/-- Modelled from the spec: the ordered evaluation of clause generators per
statement kind; a statement kind that requires a target and has none fails
with `EmptyStatement` (spec §4.4, §4.5). -/
def genFrags (ctx : Ctx) : Except CompileError (List Frag) :=
  match ctx.kind with
  | .select =>
    .ok ([selectFrag ctx] ++ optList (fromFrag ctx) ++ optList (whereFrag ctx.whr))
  | .delete =>
    if ctx.frm.isEmpty then .error .emptyStatement
    else .ok ([{ text := [.str "delete"], args := [] }] ++
      optList (fromFrag ctx) ++ optList (whereFrag ctx.whr) ++
      optList (returningFrag ctx))
  | .update =>
    if ctx.frm.isEmpty then .error .emptyStatement
    else .ok ([updateFrag ctx] ++ optList (whereFrag ctx.whr) ++
      optList (returningFrag ctx))
  | .insert =>
    if ctx.frm.isEmpty then .error .emptyStatement
    else do
      let f ← insertFrag ctx
      .ok ([f] ++ optList (returningFrag ctx))

/-- The full compilation: reduce the log, evaluate the clause generators,
assemble the statement (spec §2 control flow). -/
def compile (log : List MethodCall) : Except CompileError Stmt := do
  let ctx ← reduce log
  let frags ← genFrags ctx
  .ok (assemble frags)

/-- Modelled from the spec: the `conditions` utility the where generator
imports from `../util` (the utility itself is not in the shipped sources) —
the per-call rendered condition texts joined with the newline separator
(README line 136, spec §4.2). -/
def conditions (whr : List (List WhereArg)) : String :=
  joinSepStr "\x0a" ((whereNodes whr).map fun n => fragShow (render n))

/-- The `where` clause generator, embedded from the shipped source
(README lines 688–694): returns nothing when the where bucket is empty;
otherwise evaluates `conditions` and returns the falsy text itself when it
is empty, and `'where ' + txt` when it is not. -/
def whereGenSrc (ctx : Ctx) : Option String :=
  if ctx.whr.length = 0 then none
  else
    let txt := conditions ctx.whr
    some (if txt = "" then "" else "where " ++ txt)

/-! ## Placeholder counting and renumbering -/

/-- Number of local placeholders in fragment text. -/
def countPh : List Tok → Nat
  | [] => 0
  | .str _ :: ts => countPh ts
  | .ph :: ts => countPh ts + 1

/-- The placeholder indices of statement text, read left to right. -/
def phIdx : List STok → List Nat
  | [] => []
  | .str _ :: ts => phIdx ts
  | .ph n :: ts => n :: phIdx ts

/-- The sequence `s, s+1, ..., s+n-1`. -/
def seqFrom (s : Nat) : Nat → List Nat
  | 0 => []
  | n + 1 => s :: seqFrom (s + 1) n

/-- A fragment invariant (spec §3): the placeholders of `text` match `args`
positionally, so their counts agree. -/
def FragOk (f : Frag) : Prop := countPh f.text = f.args.length

theorem countPh_append (a b : List Tok) :
    countPh (a ++ b) = countPh a + countPh b := by
  induction a with
  | nil => simp [countPh]
  | cons t ts ih => cases t <;> simp [countPh, ih] <;> omega

theorem phIdx_numberToks (ts : List Tok) (k : Nat) :
    phIdx (numberToks ts k) = seqFrom k (countPh ts) := by
  induction ts generalizing k with
  | nil => rfl
  | cons t ts ih => cases t <;> simp [numberToks, phIdx, countPh, ih, seqFrom]

theorem seqFrom_length (s n : Nat) : (seqFrom s n).length = n := by
  induction n generalizing s with
  | zero => rfl
  | succ n ih => simp [seqFrom, ih]

theorem mem_seqFrom {m s n : Nat} (h : m ∈ seqFrom s n) : s ≤ m := by
  induction n generalizing s with
  | zero => simp [seqFrom] at h
  | succ n ih =>
    simp only [seqFrom, List.mem_cons] at h
    rcases h with rfl | h
    · exact Nat.le_refl m
    · exact Nat.le_of_succ_le (ih h)

theorem seqFrom_pairwise_lt (n s : Nat) :
    (seqFrom s n).Pairwise (· < ·) := by
  induction n generalizing s with
  | zero => exact List.Pairwise.nil
  | succ n ih =>
    refine List.Pairwise.cons (fun m hm => ?_) (ih (s + 1))
    exact Nat.lt_of_succ_le (mem_seqFrom hm)

theorem fragOk_paren {f : Frag} (h : FragOk f) : FragOk (paren f) := by
  unfold FragOk paren at *
  simp [countPh, countPh_append, h]

theorem fragOk_if_paren {f : Frag} (b : Bool) (h : FragOk f) :
    FragOk (if b then paren f else f) := by
  cases b
  · simpa using h
  · simpa using fragOk_paren h

theorem fragOk_glue {fa fb : Frag} (s : String) (ha : FragOk fa) (hb : FragOk fb) :
    FragOk { text := fa.text ++ .str s :: fb.text, args := fa.args ++ fb.args } := by
  unfold FragOk at *
  simp [countPh_append, countPh, ha, hb]

/-- All leaves of a condition tree satisfy the fragment invariant.  Every
node produced by the condition algebra's public constructors satisfies
this. -/
def leavesOkB : CondNode → Bool
  | .leaf f => countPh f.text == f.args.length
  | .not c => leavesOkB c
  | .and a b => leavesOkB a && leavesOkB b
  | .or a b => leavesOkB a && leavesOkB b

theorem fragOk_render {n : CondNode} (h : leavesOkB n = true) :
    FragOk (render n) := by
  induction n with
  | leaf f =>
    simp only [leavesOkB, Nat.beq_eq_true_eq] at h
    exact h
  | not c ih =>
    simp only [leavesOkB] at h
    have hc := fragOk_if_paren (needsParens .pNot c) (ih h)
    unfold FragOk at *
    simp [render, countPh, hc]
  | and a b iha ihb =>
    simp only [leavesOkB, Bool.and_eq_true] at h
    have ha := fragOk_if_paren (needsParens .pAnd a) (iha h.1)
    have hb := fragOk_if_paren (needsParens .pAnd b) (ihb h.2)
    unfold FragOk at *
    simp [render, countPh, countPh_append, ha, hb]
  | or a b iha ihb =>
    simp only [leavesOkB, Bool.and_eq_true] at h
    have ha := fragOk_if_paren (needsParens .pOr a) (iha h.1)
    have hb := fragOk_if_paren (needsParens .pOr b) (ihb h.2)
    unfold FragOk at *
    simp [render, countPh, countPh_append, ha, hb]

theorem fragOk_joinFrags (s : String) (fs : List Frag)
    (h : ∀ f ∈ fs, FragOk f) : FragOk (joinFrags (.str s) fs) := by
  induction fs with
  | nil => exact rfl
  | cons f fs ih =>
    cases fs with
    | nil => exact h f (List.mem_cons_self f [])
    | cons g gs =>
      have hf := h f (List.mem_cons_self f (g :: gs))
      have hrest := ih (fun x hx => h x (List.mem_cons_of_mem f hx))
      exact fragOk_glue s hf hrest

theorem tmplFrag_nil_args (ps : List String) : (tmplFrag ps []).args = [] := by
  cases ps <;> rfl

theorem fragOk_tmplFrag (ps : List String) (vs : List Val) :
    FragOk (tmplFrag ps vs) := by
  induction ps generalizing vs with
  | nil => exact rfl
  | cons p ps ih =>
    cases vs with
    | nil =>
      have h1 := ih []
      unfold FragOk at *
      simp only [tmplFrag_nil_args, List.length_nil] at h1
      simp [tmplFrag, countPh, h1]
    | cons v vs =>
      have h1 := ih vs
      unfold FragOk at *
      simp [tmplFrag, countPh, h1]

/-- Is an object-shorthand mapping value well-formed (spliced condition
nodes have the fragment invariant at their leaves)? -/
def mapValOkB : MapVal → Bool
  | .val _ => true
  | .node c => leavesOkB c

/-- Is a where-call argument well-formed? -/
def whereArgOkB : WhereArg → Bool
  | .map pairs => pairs.all fun p => mapValOkB p.2
  | .tmpl _ _ => true
  | .node c => leavesOkB c
  | .junk _ => true

/-- Is a method call well-formed? -/
def callOkB : MethodCall → Bool
  | .whr args => args.all whereArgOkB
  | _ => true

/-- Is every call of a method log well-formed?  Logs produced through the
builder façade and the condition algebra's public constructors always
are. -/
def logOkB (log : List MethodCall) : Bool := log.all callOkB

theorem leavesOkB_pairLeaf (k : String) (mv : MapVal)
    (h : mapValOkB mv = true) : leavesOkB (pairLeaf k mv) = true := by
  cases mv with
  | node c => exact h
  | val v => cases v <;> simp [pairLeaf, classify, leavesOkB, countPh]

theorem leavesOkB_foldl_conjoin (cs : List CondNode) (c : CondNode)
    (hc : leavesOkB c = true) (h : ∀ x ∈ cs, leavesOkB x = true) :
    leavesOkB (cs.foldl conjoin c) = true := by
  induction cs generalizing c with
  | nil => exact hc
  | cons x cs ih =>
    have hx := h x (List.mem_cons_self x cs)
    refine ih (conjoin c x) ?_ (fun y hy => h y (List.mem_cons_of_mem x hy))
    simp [conjoin, leavesOkB, hc, hx]

theorem leavesOkB_foldl_disjoin (cs : List CondNode) (c : CondNode)
    (hc : leavesOkB c = true) (h : ∀ x ∈ cs, leavesOkB x = true) :
    leavesOkB (cs.foldl disjoin c) = true := by
  induction cs generalizing c with
  | nil => exact hc
  | cons x cs ih =>
    have hx := h x (List.mem_cons_self x cs)
    refine ih (disjoin c x) ?_ (fun y hy => h y (List.mem_cons_of_mem x hy))
    simp [disjoin, leavesOkB, hc, hx]

theorem leavesOkB_conjoinAll {cs : List CondNode} {n : CondNode}
    (hall : ∀ x ∈ cs, leavesOkB x = true) (h : conjoinAll cs = some n) :
    leavesOkB n = true := by
  cases cs with
  | nil => exact absurd h (by simp [conjoinAll])
  | cons c cs =>
    simp only [conjoinAll, Option.some_inj] at h
    subst h
    exact leavesOkB_foldl_conjoin cs c (hall c (List.mem_cons_self c cs))
      (fun y hy => hall y (List.mem_cons_of_mem c hy))

theorem leavesOkB_disjoinAll {cs : List CondNode} {n : CondNode}
    (hall : ∀ x ∈ cs, leavesOkB x = true) (h : disjoinAll cs = some n) :
    leavesOkB n = true := by
  cases cs with
  | nil => exact absurd h (by simp [disjoinAll])
  | cons c cs =>
    simp only [disjoinAll, Option.some_inj] at h
    subst h
    exact leavesOkB_foldl_disjoin cs c (hall c (List.mem_cons_self c cs))
      (fun y hy => hall y (List.mem_cons_of_mem c hy))

theorem leavesOkB_fromObjectShorthand {pairs : List (String × MapVal)}
    {n : CondNode} (hall : ∀ p ∈ pairs, mapValOkB p.2 = true)
    (h : fromObjectShorthand pairs = some n) : leavesOkB n = true := by
  refine leavesOkB_conjoinAll (fun x hx => ?_) h
  rcases List.mem_map.1 hx with ⟨p, hp, rfl⟩
  exact leavesOkB_pairLeaf p.1 p.2 (hall p hp)

theorem leavesOkB_whereCallNode {args : List WhereArg} {n : CondNode}
    (hargs : args.all whereArgOkB = true) (h : whereCallNode args = some n) :
    leavesOkB n = true := by
  refine leavesOkB_disjoinAll (fun x hx => ?_) h
  rcases List.mem_filterMap.1 hx with ⟨a, ha, hfa⟩
  have hok : whereArgOkB a = true := by
    exact List.all_eq_true.1 hargs a ha
  cases a with
  | map pairs =>
    refine leavesOkB_fromObjectShorthand (fun p hp => ?_) hfa
    simpa [whereArgOkB, List.all_eq_true] using List.all_eq_true.1 hok p hp
  | tmpl parts vs =>
    simp only [Option.some_inj] at hfa
    subst hfa
    have := fragOk_tmplFrag parts vs
    unfold FragOk at this
    simp [fromRawFragment, leavesOkB, this]
  | node c =>
    simp only [Option.some_inj] at hfa
    subst hfa
    exact hok
  | junk v => exact absurd hfa (by simp)

/-- Is every where-call entry of a context well-formed? -/
def whrOkB (ctx : Ctx) : Bool := ctx.whr.all fun call => call.all whereArgOkB

theorem whrOkB_reduceStep {ctx : Ctx} {c : MethodCall} {ctx' : Ctx}
    (hstep : reduceStep ctx c = .ok ctx') (hc : callOkB c = true)
    (hctx : whrOkB ctx = true) : whrOkB ctx' = true := by
  cases c with
  | whr args =>
    cases hj : args.any isJunk with
    | true => simp [reduceStep, hj] at hstep
    | false =>
      simp only [reduceStep, hj, Bool.false_eq_true, if_false, ite_false,
        Except.ok.injEq] at hstep
      subst hstep
      simp only [whrOkB, List.all_append, List.all_cons, List.all_nil,
        Bool.and_true, Bool.and_eq_true] at *
      exact ⟨hctx, by simpa [callOkB] using hc⟩
  | frm ts =>
    simp only [reduceStep, Except.ok.injEq] at hstep
    subst hstep
    exact hctx
  | ret cols =>
    simp only [reduceStep, Except.ok.injEq] at hstep
    subst hstep
    exact hctx
  | set assigns =>
    cases hk : setKind ctx.kind .update with
    | error e => simp [reduceStep, hk, bind, Except.bind] at hstep
    | ok k =>
      simp only [reduceStep, hk, bind, Except.bind, Except.ok.injEq] at hstep
      subst hstep
      exact hctx
  | insCols cols =>
    cases hk : setKind ctx.kind .insert with
    | error e => simp [reduceStep, hk, bind, Except.bind] at hstep
    | ok k =>
      simp only [reduceStep, hk, bind, Except.bind, Except.ok.injEq] at hstep
      subst hstep
      exact hctx
  | insVal vals =>
    cases hk : setKind ctx.kind .insert with
    | error e => simp [reduceStep, hk, bind, Except.bind] at hstep
    | ok k =>
      simp only [reduceStep, hk, bind, Except.bind, Except.ok.injEq] at hstep
      subst hstep
      exact hctx
  | insRows rows =>
    cases hk : setKind ctx.kind .insert with
    | error e => simp [reduceStep, hk, bind, Except.bind] at hstep
    | ok k =>
      simp only [reduceStep, hk, bind, Except.bind, Except.ok.injEq] at hstep
      subst hstep
      exact hctx
  | del =>
    cases hk : setKind ctx.kind .delete with
    | error e => simp [reduceStep, hk, bind, Except.bind] at hstep
    | ok k =>
      simp only [reduceStep, hk, bind, Except.bind, Except.ok.injEq] at hstep
      subst hstep
      exact hctx

theorem whrOkB_reduceAux {log : List MethodCall} {ctx0 ctx : Ctx}
    (h : reduceAux ctx0 log = .ok ctx) (hlog : logOkB log = true)
    (h0 : whrOkB ctx0 = true) : whrOkB ctx = true := by
  induction log generalizing ctx0 with
  | nil =>
    simp only [reduceAux, Except.ok.injEq] at h
    subst h
    exact h0
  | cons c cs ih =>
    simp only [logOkB, List.all_cons, Bool.and_eq_true] at hlog
    cases hstep : reduceStep ctx0 c with
    | error e => simp [reduceAux, hstep, bind, Except.bind] at h
    | ok ctx1 =>
      simp only [reduceAux, hstep, bind, Except.bind] at h
      exact ih h hlog.2 (whrOkB_reduceStep hstep hlog.1 h0)

theorem whrOkB_reduce {log : List MethodCall} {ctx : Ctx}
    (h : reduce log = .ok ctx) (hlog : logOkB log = true) :
    whrOkB ctx = true :=
  whrOkB_reduceAux h hlog rfl

theorem fragOk_setItem (kv : String × Val) : FragOk (setItem kv) := by
  rcases kv with ⟨k, v⟩
  cases v <;> simp [setItem, classify, FragOk, countPh]

theorem fragOk_cellFrag (e : TupleEntry) : FragOk (cellFrag e) := by
  cases e with
  | dflt => exact rfl
  | val v => cases v <;> simp [cellFrag, FragOk, countPh]

theorem fragOk_rowFrag (cells : List TupleEntry) : FragOk (rowFrag cells) := by
  have h := fragOk_joinFrags ", " (cells.map cellFrag) (by
    intro f hf
    rcases List.mem_map.1 hf with ⟨e, _, rfl⟩
    exact fragOk_cellFrag e)
  unfold FragOk at *
  simp [rowFrag, countPh, countPh_append, h]

theorem fragOk_whereFrag {whr : List (List WhereArg)} {f : Frag}
    (hwhr : whr.all (fun call => call.all whereArgOkB) = true)
    (h : whereFrag whr = some f) : FragOk f := by
  unfold whereFrag at h
  by_cases he : whr.isEmpty
  · simp [he] at h
  · simp only [he, Bool.false_eq_true, if_false, ite_false] at h
    set j := joinFrags (.str "\x0a") ((whereNodes whr).map render) with hj
    by_cases hte : j.text.isEmpty
    · rw [if_pos hte] at h
      exact absurd h (by simp)
    · rw [if_neg hte] at h
      have hjok : FragOk j := by
        refine fragOk_joinFrags _ _ (fun g hg => ?_)
        rcases List.mem_map.1 hg with ⟨n, hn, rfl⟩
        rcases List.mem_filterMap.1 hn with ⟨call, hcall, hcn⟩
        exact fragOk_render
          (leavesOkB_whereCallNode (List.all_eq_true.1 hwhr call hcall) hcn)
      simp only [Option.some_inj] at h
      subst h
      unfold FragOk at *
      simp [countPh, hjok]

theorem fragOk_insertFrag {ctx : Ctx} {f : Frag}
    (h : insertFrag ctx = .ok f) : FragOk f := by
  unfold insertFrag at h
  by_cases hr : ctx.insRows.isEmpty
  · simp only [hr, if_true, ite_true] at h
    by_cases ha : ctx.insVals.any (fun r => r.length != ctx.insCols.length) = true
    · simp [ha] at h
    · simp only [ha, Bool.false_eq_true, if_false, ite_false,
        Except.ok.injEq] at h
      subst h
      have hrows := fragOk_joinFrags ", "
        (ctx.insVals.map fun r => rowFrag (r.map TupleEntry.val)) (by
          intro g hg
          rcases List.mem_map.1 hg with ⟨r, _, rfl⟩
          exact fragOk_rowFrag _)
      unfold FragOk at *
      simp [countPh, hrows]
  · simp only [hr, Bool.false_eq_true, if_false, ite_false,
      Except.ok.injEq] at h
    subst h
    have hrows := fragOk_joinFrags ", "
      (ctx.insRows.map fun r => rowFrag (rowTuple (firstSeenKeys ctx.insRows) r)) (by
        intro g hg
        rcases List.mem_map.1 hg with ⟨r, _, rfl⟩
        exact fragOk_rowFrag _)
    unfold FragOk at *
    simp [countPh, hrows]

theorem fragOk_updateFrag (ctx : Ctx) : FragOk (updateFrag ctx) := by
  have h := fragOk_joinFrags ", " (ctx.sets.map setItem) (by
    intro f hf
    rcases List.mem_map.1 hf with ⟨kv, _, rfl⟩
    exact fragOk_setItem kv)
  unfold FragOk at *
  simp [updateFrag, countPh, h]

theorem mem_optList {o : Option Frag} {f : Frag} (h : f ∈ optList o) :
    o = some f := by
  cases o with
  | none => simp [optList] at h
  | some g =>
    simp only [optList, List.mem_singleton] at h
    subst h
    rfl

theorem fragOk_fromFrag {ctx : Ctx} {f : Frag} (h : fromFrag ctx = some f) :
    FragOk f := by
  unfold fromFrag at h
  by_cases he : ctx.frm.isEmpty
  · simp [he] at h
  · simp only [he, Bool.false_eq_true, if_false, ite_false,
      Option.some_inj] at h
    subst h
    exact rfl

theorem fragOk_returningFrag {ctx : Ctx} {f : Frag}
    (h : returningFrag ctx = some f) : FragOk f := by
  unfold returningFrag at h
  by_cases he : ctx.ret.isEmpty
  · simp [he] at h
  · simp only [he, Bool.false_eq_true, if_false, ite_false,
      Option.some_inj] at h
    subst h
    exact rfl

theorem fragOk_genFrags {ctx : Ctx} {frags : List Frag}
    (h : genFrags ctx = .ok frags) (hwhr : whrOkB ctx = true) :
    ∀ f ∈ frags, FragOk f := by
  intro f hf
  unfold genFrags at h
  cases hk : ctx.kind with
  | select =>
    rw [hk] at h
    simp only [Except.ok.injEq] at h
    subst h
    simp only [List.mem_append, List.mem_singleton] at hf
    rcases hf with (rfl | hf) | hf
    · exact rfl
    · exact fragOk_fromFrag (mem_optList hf)
    · exact fragOk_whereFrag hwhr (mem_optList hf)
  | delete =>
    rw [hk] at h
    by_cases he : ctx.frm.isEmpty
    · simp [he] at h
    · simp only [he, Bool.false_eq_true, if_false, ite_false,
        Except.ok.injEq] at h
      subst h
      simp only [List.mem_append, List.mem_singleton] at hf
      rcases hf with ((rfl | hf) | hf) | hf
      · exact rfl
      · exact fragOk_fromFrag (mem_optList hf)
      · exact fragOk_whereFrag hwhr (mem_optList hf)
      · exact fragOk_returningFrag (mem_optList hf)
  | update =>
    rw [hk] at h
    by_cases he : ctx.frm.isEmpty
    · simp [he] at h
    · simp only [he, Bool.false_eq_true, if_false, ite_false,
        Except.ok.injEq] at h
      subst h
      simp only [List.mem_append, List.mem_singleton] at hf
      rcases hf with (rfl | hf) | hf
      · exact fragOk_updateFrag ctx
      · exact fragOk_whereFrag hwhr (mem_optList hf)
      · exact fragOk_returningFrag (mem_optList hf)
  | insert =>
    rw [hk] at h
    by_cases he : ctx.frm.isEmpty
    · simp [he] at h
    · simp only [he, Bool.false_eq_true, if_false, ite_false] at h
      cases hins : insertFrag ctx with
      | error e => simp [hins, bind, Except.bind] at h
      | ok g =>
        simp only [hins, bind, Except.bind, Except.ok.injEq] at h
        subst h
        simp only [List.mem_append, List.mem_singleton] at hf
        rcases hf with rfl | hf
        · exact fragOk_insertFrag hins
        · exact fragOk_returningFrag (mem_optList hf)

theorem assemble_placeholders {frags : List Frag}
    (h : ∀ f ∈ frags, FragOk f) :
    phIdx (assemble frags).text = seqFrom 1 (assemble frags).args.length := by
  have hj := fragOk_joinFrags " " frags h
  unfold FragOk at hj
  simp only [assemble, phIdx_numberToks, hj]

theorem compile_ok_inversion {log : List MethodCall} {stmt : Stmt}
    (h : compile log = .ok stmt) :
    ∃ ctx frags, reduce log = .ok ctx ∧ genFrags ctx = .ok frags ∧
      stmt = assemble frags := by
  unfold compile at h
  cases hr : reduce log with
  | error e => simp [hr, bind, Except.bind] at h
  | ok ctx =>
    simp only [hr, bind, Except.bind] at h
    cases hg : genFrags ctx with
    | error e => simp [hg, bind, Except.bind] at h
    | ok frags =>
      simp only [hg, bind, Except.bind, Except.ok.injEq] at h
      exact ⟨ctx, frags, rfl, hg, h.symm⟩

/-! ## Condition-algebra rendering lemmas -/

theorem toksShow_append (a b : List Tok) :
    toksShow (a ++ b) = toksShow a ++ toksShow b := by
  induction a with
  | nil => simp [toksShow]
  | cons t ts ih => simp [toksShow, ih, String.append_assoc]

/-- Concat-map over a list. -/
def cmap {α β : Type} (f : α → List β) : List α → List β
  | [] => []
  | x :: xs => f x ++ cmap f xs

/-- Is the top of a condition tree a leaf or a conjunction (so that it
renders bare under an `and` parent)? -/
def andBare : CondNode → Bool
  | .leaf _ => true
  | .and _ _ => true
  | _ => false

theorem needsParens_pAnd_of_andBare {n : CondNode} (h : andBare n = true) :
    needsParens .pAnd n = false := by
  cases n <;> simp_all [andBare, needsParens]

/-- Rendering a left fold of `conjoin` over leaf-like summands is flat:
the texts joined by ` and ` in order, the argument lists concatenated in
order, with no parentheses introduced. -/
theorem render_foldl_conjoin (ls : List CondNode) (n : CondNode)
    (hn : andBare n = true) (hls : ∀ l ∈ ls, andBare l = true) :
    render (ls.foldl conjoin n) =
      { text := (render n).text ++ cmap (fun l => .str " and " :: (render l).text) ls,
        args := (render n).args ++ cmap (fun l => (render l).args) ls } := by
  induction ls generalizing n with
  | nil => simp [cmap]
  | cons l ls ih =>
    have hl := hls l (List.mem_cons_self l ls)
    have hrec := ih (conjoin n l) (by simp [conjoin, andBare])
      (fun x hx => hls x (List.mem_cons_of_mem l hx))
    simp only [List.foldl_cons] at *
    rw [hrec]
    have hand : render (conjoin n l) =
        { text := (render n).text ++ .str " and " :: (render l).text,
          args := (render n).args ++ (render l).args } := by
      show render (.and n l) = _
      rw [render]
      simp [needsParens_pAnd_of_andBare hn, needsParens_pAnd_of_andBare hl]
    rw [hand]
    simp [cmap, List.append_assoc]

theorem cmap_map {α β γ : Type} (f : β → List γ) (g : α → β) (l : List α) :
    cmap f (l.map g) = cmap (fun x => f (g x)) l := by
  induction l with
  | nil => rfl
  | cons x xs ih => simp [cmap, ih]

theorem cmap_congr {α β : Type} {f g : α → List β} {l : List α}
    (h : ∀ x ∈ l, f x = g x) : cmap f l = cmap g l := by
  induction l with
  | nil => rfl
  | cons x xs ih =>
    simp only [cmap, h x (List.mem_cons_self x xs)]
    rw [ih (fun y hy => h y (List.mem_cons_of_mem x hy))]

theorem cmap_singleton {α β : Type} (g : α → β) (l : List α) :
    cmap (fun x => [g x]) l = l.map g := by
  induction l with
  | nil => rfl
  | cons x xs ih => simp [cmap, ih]

/-- Is a value free of the raw-text marker? -/
def plainVal : Val → Bool
  | .raw _ => false
  | _ => true

theorem classify_plain {v : Val} (h : plainVal v = true) :
    classify v = .param v := by
  cases v <;> simp_all [plainVal, classify]

theorem pairLeaf_plain {k : String} {v : Val} (h : plainVal v = true) :
    pairLeaf k (.val v) =
      .leaf { text := [.str (k ++ " = "), .ph], args := [v] } := by
  simp [pairLeaf, classify_plain h]

/-! ## Insert column-union lemmas (C4) -/

theorem mem_addKeys {row : List (String × Val)} {acc : List String}
    {k : String} :
    k ∈ addKeys acc row ↔ k ∈ acc ∨ k ∈ row.map Prod.fst := by
  induction row generalizing acc with
  | nil => simp [addKeys]
  | cons kv row ih =>
    show k ∈ addKeys (if kv.1 ∈ acc then acc else acc ++ [kv.1]) row ↔ _
    rw [ih]
    by_cases hm : kv.1 ∈ acc
    · rw [if_pos hm]
      simp only [List.map_cons, List.mem_cons]
      constructor
      · tauto
      · intro h
        rcases h with h | h | h
        · exact Or.inl h
        · exact Or.inl (h ▸ hm)
        · exact Or.inr h
    · rw [if_neg hm]
      simp only [List.mem_append, List.mem_singleton, List.map_cons,
        List.mem_cons, List.not_mem_nil, or_false]
      tauto

theorem nodup_addKeys {row : List (String × Val)} {acc : List String}
    (h : acc.Nodup) : (addKeys acc row).Nodup := by
  induction row generalizing acc with
  | nil => exact h
  | cons kv row ih =>
    show (addKeys (if kv.1 ∈ acc then acc else acc ++ [kv.1]) row).Nodup
    by_cases hm : kv.1 ∈ acc
    · rw [if_pos hm]
      exact ih h
    · rw [if_neg hm]
      refine ih ?_
      rw [← List.concat_eq_append]
      exact List.Nodup.concat hm h

theorem mem_foldl_addKeys (rows : List (List (String × Val)))
    (acc : List String) (k : String) :
    k ∈ rows.foldl addKeys acc ↔
      k ∈ acc ∨ ∃ r ∈ rows, k ∈ r.map Prod.fst := by
  induction rows generalizing acc with
  | nil => simp
  | cons r rows ih =>
    show k ∈ rows.foldl addKeys (addKeys acc r) ↔ _
    rw [ih, mem_addKeys]
    simp only [List.mem_cons]
    constructor
    · rintro ((h | h) | ⟨r', hr', h⟩)
      · exact Or.inl h
      · exact Or.inr ⟨r, Or.inl rfl, h⟩
      · exact Or.inr ⟨r', Or.inr hr', h⟩
    · rintro (h | ⟨r', hr' | hr', h⟩)
      · exact Or.inl (Or.inl h)
      · exact Or.inl (Or.inr (hr' ▸ h))
      · exact Or.inr ⟨r', hr', h⟩

theorem mem_firstSeenKeys {rows : List (List (String × Val))} {k : String} :
    k ∈ firstSeenKeys rows ↔ ∃ r ∈ rows, k ∈ r.map Prod.fst := by
  rw [firstSeenKeys, mem_foldl_addKeys]
  simp

theorem nodup_firstSeenKeys (rows : List (List (String × Val))) :
    (firstSeenKeys rows).Nodup := by
  rw [firstSeenKeys]
  have h : ∀ (rs : List (List (String × Val))) (acc : List String),
      acc.Nodup → (rs.foldl addKeys acc).Nodup := by
    intro rs
    induction rs with
    | nil => exact fun acc h => h
    | cons r rs ih => exact fun acc hacc => ih (addKeys acc r) (nodup_addKeys hacc)
  exact h rows [] List.nodup_nil


/-! ## Substring-occurrence theory (C2) -/

/-- Decimal digit character. -/
def digitChar : Nat → Char
  | 0 => '0'
  | 1 => '1'
  | 2 => '2'
  | 3 => '3'
  | 4 => '4'
  | 5 => '5'
  | 6 => '6'
  | 7 => '7'
  | 8 => '8'
  | _ => '9'

/-- Decimal representation of a natural number as characters. -/
def natChars (n : Nat) : List Char :=
  if h : n < 10 then [digitChar n]
  else natChars (n / 10) ++ [digitChar (n % 10)]
decreasing_by exact Nat.div_lt_self (by omega) (by omega)

/-- Does `s` start with `pat`? -/
def startsAs : List Char → List Char → Bool
  | [], _ => true
  | _ :: _, [] => false
  | a :: as, b :: bs => a == b && startsAs as bs

/-- Does `pat` occur as a contiguous substring of `s`? -/
def occursIn (pat : List Char) : List Char → Bool
  | [] => startsAs pat []
  | c :: cs => startsAs pat (c :: cs) || occursIn pat cs

/-- The character content of the substring `where`. -/
def wpat : List Char := "where".data

theorem occursIn_nil_pat (l : List Char) : occursIn [] l = true := by
  cases l <;> simp [occursIn, startsAs]

theorem startsAs_extend {pat u : List Char} (w : List Char)
    (h : startsAs pat u = true) : startsAs pat (u ++ w) = true := by
  induction pat generalizing u with
  | nil => rfl
  | cons p ps ih =>
    cases u with
    | nil => simp [startsAs] at h
    | cons x xs =>
      simp only [startsAs, Bool.and_eq_true] at *
      exact ⟨h.1, ih h.2⟩

theorem startsAs_fit {pat u : List Char} (w : List Char)
    (h : startsAs pat (u ++ w) = true) (hlen : pat.length ≤ u.length) :
    startsAs pat u = true := by
  induction pat generalizing u with
  | nil => rfl
  | cons p ps ih =>
    cases u with
    | nil => simp at hlen
    | cons x xs =>
      simp only [List.cons_append, startsAs, Bool.and_eq_true] at *
      exact ⟨h.1, ih h.2 (by simpa using hlen)⟩

theorem startsAs_hits {pat u v : List Char} {c : Char}
    (h : startsAs pat (u ++ c :: v) = true) (hlen : u.length < pat.length) :
    c ∈ pat := by
  induction pat generalizing u with
  | nil => simp at hlen
  | cons p ps ih =>
    cases u with
    | nil =>
      simp only [List.nil_append, startsAs, Bool.and_eq_true, beq_iff_eq] at h
      exact h.1 ▸ List.mem_cons_self p ps
    | cons x xs =>
      simp only [List.cons_append, startsAs, Bool.and_eq_true] at h
      exact List.mem_cons_of_mem p (ih h.2 (by simpa using hlen))

theorem occursIn_of_startsAs {pat s : List Char}
    (h : startsAs pat s = true) : occursIn pat s = true := by
  cases s with
  | nil => exact h
  | cons c cs => simp [occursIn, h]

theorem occursIn_append_left {pat a : List Char} (b : List Char)
    (h : occursIn pat a = true) : occursIn pat (a ++ b) = true := by
  induction a with
  | nil =>
    cases pat with
    | nil => exact occursIn_nil_pat b
    | cons p ps => simp [occursIn, startsAs] at h
  | cons x xs ih =>
    simp only [occursIn, Bool.or_eq_true] at h
    rcases h with h | h
    · exact occursIn_of_startsAs (by simpa using startsAs_extend b h)
    · simp only [List.cons_append, occursIn, Bool.or_eq_true]
      exact Or.inr (ih h)

theorem occursIn_append_right {pat b : List Char} (a : List Char)
    (h : occursIn pat b = true) : occursIn pat (a ++ b) = true := by
  induction a with
  | nil => exact h
  | cons x xs ih =>
    simp only [List.cons_append, occursIn, Bool.or_eq_true]
    exact Or.inr ih

theorem occ_false_of_append {pat a b : List Char}
    (h : occursIn pat (a ++ b) = false) :
    occursIn pat a = false ∧ occursIn pat b = false := by
  constructor
  · cases ha : occursIn pat a with
    | false => rfl
    | true => rw [occursIn_append_left b ha] at h; exact h
  · cases hb : occursIn pat b with
    | false => rfl
    | true => rw [occursIn_append_right a hb] at h; exact h

theorem occ_cons_elim {pat l : List Char} {c : Char}
    (h : occursIn pat (c :: l) = false) : occursIn pat l = false := by
  simp only [occursIn, Bool.or_eq_false_iff] at h
  exact h.2

theorem occ_cons_safe {pat l : List Char} {c : Char} (hc : c ∉ pat)
    (hl : occursIn pat l = false) : occursIn pat (c :: l) = false := by
  cases pat with
  | nil => rw [occursIn_nil_pat] at hl; exact absurd hl (by simp)
  | cons p ps =>
    simp only [occursIn, Bool.or_eq_false_iff]
    refine ⟨?_, hl⟩
    cases hpc : startsAs (p :: ps) (c :: l) with
    | false => rfl
    | true =>
      simp only [startsAs, Bool.and_eq_true, beq_iff_eq] at hpc
      exact absurd (hpc.1 ▸ List.mem_cons_self p ps) hc

theorem occ_seam {pat a b : List Char} {c : Char}
    (ha : occursIn pat a = false) (hc : c ∉ pat)
    (hb : occursIn pat b = false) :
    occursIn pat (a ++ c :: b) = false := by
  induction a with
  | nil => exact occ_cons_safe hc hb
  | cons x xs ih =>
    have hx : occursIn pat (x :: xs) = false := ha
    simp only [occursIn, Bool.or_eq_false_iff] at hx
    have hrec := ih hx.2
    simp only [List.cons_append, occursIn, Bool.or_eq_false_iff]
    refine ⟨?_, hrec⟩
    cases hsa : startsAs pat (x :: (xs ++ c :: b)) with
    | false => rfl
    | true =>
      by_cases hlen : pat.length ≤ (x :: xs).length
      · have := startsAs_fit (c :: b) (by simpa using hsa) hlen
        rw [this] at hx
        exact absurd hx.1 (by simp)
      · have hmem : c ∈ pat := by
          refine startsAs_hits (u := x :: xs) (by simpa using hsa) ?_
          omega
        exact absurd hmem hc

theorem occ_safeList_append {pat l b : List Char}
    (hl : ∀ c ∈ l, c ∉ pat) (hb : occursIn pat b = false) :
    occursIn pat (l ++ b) = false := by
  induction l with
  | nil => exact hb
  | cons c cs ih =>
    exact occ_cons_safe (hl c (List.mem_cons_self c cs))
      (ih fun x hx => hl x (List.mem_cons_of_mem c hx))

theorem digitChar_not_wpat (m : Nat) : digitChar m ∉ wpat := by
  unfold digitChar
  split <;> decide

theorem natChars_not_wpat (n : Nat) : ∀ c ∈ natChars n, c ∉ wpat := by
  induction n using Nat.strong_induction_on with
  | _ n ih =>
    intro c hc
    rw [natChars] at hc
    by_cases h : n < 10
    · rw [dif_pos h] at hc
      simp only [List.mem_singleton] at hc
      exact hc ▸ digitChar_not_wpat n
    · rw [dif_neg h] at hc
      rcases List.mem_append.1 hc with hm | hm
      · exact ih (n / 10) (Nat.div_lt_self (by omega) (by omega)) c hm
      · simp only [List.mem_singleton] at hm
        exact hm ▸ digitChar_not_wpat (n % 10)

/-! ## Safe rendering of compiled statements (C2) -/

/-- Character content of a fragment token, with a bare `$` for a local
placeholder. -/
def tokCharsQ : Tok → List Char
  | .str s => s.data
  | .ph => ['$']

/-- Character content of fragment text. -/
def charsOfQ (ts : List Tok) : List Char := cmap tokCharsQ ts

/-- Character content of a statement token (`$n` for placeholders). -/
def stokChars : STok → List Char
  | .str s => s.data
  | .ph n => '$' :: natChars n

/-- Character content of statement text. -/
def charsOfS (ts : List STok) : List Char := cmap stokChars ts

theorem cmap_append {α β : Type} (f : α → List β) (a b : List α) :
    cmap f (a ++ b) = cmap f a ++ cmap f b := by
  induction a with
  | nil => rfl
  | cons x xs ih => simp [cmap, ih]

theorem charsOfS_numberToks :
    ∀ (N : Nat) (ts : List Tok) (k : Nat), ts.length ≤ N →
    occursIn wpat (charsOfQ ts) = false →
    occursIn wpat (charsOfS (numberToks ts k)) = false := by
  intro N
  induction N with
  | zero =>
    intro ts k hlen hq
    have hnil : ts = [] := List.length_eq_zero.1 (Nat.le_zero.1 hlen)
    subst hnil
    exact hq
  | succ N ih =>
    intro ts k hlen hq
    cases ts with
    | nil => exact hq
    | cons t r =>
      cases t with
      | ph =>
        have hq2 : occursIn wpat ('$' :: charsOfQ r) = false := hq
        have hr : occursIn wpat (charsOfQ r) = false := occ_cons_elim hq2
        have hlen' : r.length ≤ N := by
          simp only [List.length_cons] at hlen
          omega
        have hrec := ih r (k + 1) hlen' hr
        show occursIn wpat
          ('$' :: (natChars k ++ charsOfS (numberToks r (k + 1)))) = false
        exact occ_cons_safe (by decide)
          (occ_safeList_append (natChars_not_wpat k) hrec)
      | str s =>
        cases r with
        | nil =>
          show occursIn wpat (s.data ++ []) = false
          exact hq
        | cons t' r' =>
          cases t' with
          | str s' =>
            have hlen' : (Tok.str (s ++ s') :: r').length ≤ N := by
              simp only [List.length_cons] at hlen ⊢
              omega
            have hqm : occursIn wpat (charsOfQ (.str (s ++ s') :: r')) = false := by
              show occursIn wpat ((s ++ s').data ++ charsOfQ r') = false
              rw [String.data_append, List.append_assoc]
              exact hq
            have hres := ih (.str (s ++ s') :: r') k hlen' hqm
            have h2 : occursIn wpat
                ((s ++ s').data ++ charsOfS (numberToks r' k)) = false := hres
            rw [String.data_append, List.append_assoc] at h2
            exact h2
          | ph =>
            have hq2 : occursIn wpat (s.data ++ '$' :: charsOfQ r') = false := hq
            have hsplit := occ_false_of_append hq2
            have hr' : occursIn wpat (charsOfQ r') = false :=
              occ_cons_elim hsplit.2
            have hlen' : r'.length ≤ N := by
              simp only [List.length_cons] at hlen
              omega
            have hrec := ih r' (k + 1) hlen' hr'
            show occursIn wpat (s.data ++
              ('$' :: (natChars k ++ charsOfS (numberToks r' (k + 1))))) = false
            exact occ_seam hsplit.1 (by decide)
              (occ_safeList_append (natChars_not_wpat k) hrec)

theorem occ_wpat_nil : occursIn wpat [] = false := by decide

theorem occ_joinSepStr {l : List String}
    (h : ∀ s ∈ l, occursIn wpat s.data = false) :
    occursIn wpat (joinSepStr ", " l).data = false := by
  induction l with
  | nil => decide
  | cons s ss ih =>
    cases ss with
    | nil => exact h s (List.mem_cons_self s [])
    | cons s2 ss2 =>
      have hdata : (s ++ ", " ++ joinSepStr ", " (s2 :: ss2)).data =
          s.data ++ (',' :: ' ' :: (joinSepStr ", " (s2 :: ss2)).data) := by
        rw [String.data_append, String.data_append, List.append_assoc]
        rfl
      show occursIn wpat
        (s ++ ", " ++ joinSepStr ", " (s2 :: ss2)).data = false
      rw [hdata]
      refine occ_seam (h s (List.mem_cons_self s (s2 :: ss2))) (by decide) ?_
      refine occ_cons_safe (by decide) ?_
      exact ih fun x hx => h x (List.mem_cons_of_mem s hx)

theorem occ_prefix_lit (lit : String) (litPre : List Char) (tail : List Char)
    (hlit : lit.data = litPre ++ [' ']) (hpre : occursIn wpat litPre = false)
    (htail : occursIn wpat tail = false) :
    occursIn wpat (lit.data ++ tail) = false := by
  rw [hlit, List.append_assoc]
  exact occ_seam hpre (by decide) htail

theorem occ_joinFrags {sep : String} {c : Char} {rest : List Char}
    (hsep : sep.data = c :: rest) (hc : c ∉ wpat)
    (hrest : ∀ x ∈ rest, x ∉ wpat) (fs : List Frag)
    (hf : ∀ f ∈ fs, occursIn wpat (charsOfQ f.text) = false) :
    occursIn wpat (charsOfQ (joinFrags (.str sep) fs).text) = false := by
  induction fs with
  | nil => exact occ_wpat_nil
  | cons f fs ih =>
    cases fs with
    | nil => exact hf f (List.mem_cons_self f [])
    | cons g gs =>
      have hchars : charsOfQ (joinFrags (.str sep) (f :: g :: gs)).text =
          charsOfQ f.text ++
            (sep.data ++ charsOfQ (joinFrags (.str sep) (g :: gs)).text) := by
        show charsOfQ (f.text ++ .str sep ::
          (joinFrags (.str sep) (g :: gs)).text) = _
        rw [charsOfQ, cmap_append]
        rfl
      rw [hchars, hsep]
      refine occ_seam (hf f (List.mem_cons_self f (g :: gs))) hc ?_
      refine occ_safeList_append hrest ?_
      exact ih fun x hx => hf x (List.mem_cons_of_mem f hx)

/-- Raw-marked text is the only value content that is spliced into
statement text. -/
def valStrings : Val → List String
  | .raw t => [t]
  | _ => []

/-- The caller-supplied strings of one method call that can reach the
compiled text. -/
def callStrings : MethodCall → List String
  | .frm ts => ts
  | .whr _ => []
  | .ret cols => cols
  | .set assigns => cmap (fun kv => kv.1 :: valStrings kv.2) assigns
  | .insCols cols => cols
  | .insVal vals => cmap valStrings vals
  | .insRows rows => cmap (fun r => cmap (fun kv => kv.1 :: valStrings kv.2) r) rows
  | .del => []

/-- All caller-supplied strings of a log that can reach compiled text. -/
def argStrings (log : List MethodCall) : List String :=
  cmap callStrings log

/-- The caller-supplied strings accumulated in a context. -/
def ctxStrings (ctx : Ctx) : List String :=
  ctx.frm ++ ctx.ret ++ cmap (fun kv => kv.1 :: valStrings kv.2) ctx.sets ++
    ctx.insCols ++ cmap (fun r => cmap valStrings r) ctx.insVals ++
    cmap (fun r => cmap (fun kv => kv.1 :: valStrings kv.2) r) ctx.insRows

/-- Is a call not a where-kind call? -/
def callNoWhrB : MethodCall → Bool
  | .whr _ => false
  | _ => true

/-- Does a method log contain no where-kind calls? -/
def noWhrB (log : List MethodCall) : Bool :=
  log.all callNoWhrB

theorem occ_selectFrag {ctx : Ctx}
    (hret : ∀ s ∈ ctx.ret, occursIn wpat s.data = false) :
    occursIn wpat (charsOfQ (selectFrag ctx).text) = false := by
  have hX : occursIn wpat
      ((if ctx.ret.isEmpty then "*" else joinSepStr ", " ctx.ret)).data = false := by
    cases he : ctx.ret.isEmpty with
    | true => simp only [if_true, ite_true]; decide
    | false =>
      simp only [Bool.false_eq_true, if_false, ite_false]
      exact occ_joinSepStr hret
  show occursIn wpat (("select " ++
    (if ctx.ret.isEmpty then "*" else joinSepStr ", " ctx.ret)).data ++ []) = false
  rw [List.append_nil, String.data_append]
  exact occ_prefix_lit "select " ("select".data) _ (by decide) (by decide) hX

theorem occ_fromFrag {ctx : Ctx} {f : Frag} (h : fromFrag ctx = some f)
    (hfrm : ∀ s ∈ ctx.frm, occursIn wpat s.data = false) :
    occursIn wpat (charsOfQ f.text) = false := by
  unfold fromFrag at h
  by_cases he : ctx.frm.isEmpty
  · simp [he] at h
  · simp only [he, Bool.false_eq_true, if_false, ite_false,
      Option.some_inj] at h
    subst h
    show occursIn wpat
      (("from " ++ joinSepStr ", " ctx.frm).data ++ []) = false
    rw [List.append_nil, String.data_append]
    exact occ_prefix_lit "from " ("from".data) _ (by decide) (by decide)
      (occ_joinSepStr hfrm)

theorem occ_returningFrag {ctx : Ctx} {f : Frag} (h : returningFrag ctx = some f)
    (hret : ∀ s ∈ ctx.ret, occursIn wpat s.data = false) :
    occursIn wpat (charsOfQ f.text) = false := by
  unfold returningFrag at h
  by_cases he : ctx.ret.isEmpty
  · simp [he] at h
  · simp only [he, Bool.false_eq_true, if_false, ite_false,
      Option.some_inj] at h
    subst h
    show occursIn wpat
      (("returning " ++ joinSepStr ", " ctx.ret).data ++ []) = false
    rw [List.append_nil, String.data_append]
    exact occ_prefix_lit "returning " ("returning".data) _ (by decide)
      (by decide) (occ_joinSepStr hret)

theorem occ_targetTable {ctx : Ctx}
    (hfrm : ∀ s ∈ ctx.frm, occursIn wpat s.data = false) :
    occursIn wpat (targetTable ctx).data = false := by
  unfold targetTable
  cases hf : ctx.frm with
  | nil => decide
  | cons t ts => exact hfrm t (hf ▸ List.mem_cons_self t ts)

theorem occ_setItem {kv : String × Val}
    (hk : occursIn wpat kv.1.data = false)
    (hv : ∀ s ∈ valStrings kv.2, occursIn wpat s.data = false) :
    occursIn wpat (charsOfQ (setItem kv).text) = false := by
  rcases kv with ⟨k, v⟩
  have hph : occursIn wpat (charsOfQ [Tok.str (k ++ " = "), Tok.ph]) = false := by
    show occursIn wpat ((k ++ " = ").data ++ (['$'] ++ [])) = false
    have hd : (k ++ " = ").data = k.data ++ [' ', '=', ' '] := by
      rw [String.data_append]
    rw [hd, List.append_assoc]
    exact occ_seam hk (by decide) (by decide)
  cases v with
  | raw t =>
    show occursIn wpat ((k ++ " = " ++ t).data ++ []) = false
    rw [List.append_nil]
    have hd : (k ++ " = " ++ t).data =
        k.data ++ (' ' :: '=' :: ' ' :: t.data) := by
      rw [String.data_append, String.data_append, List.append_assoc]
      rfl
    rw [hd]
    refine occ_seam hk (by decide) ?_
    refine occ_cons_safe (by decide) (occ_cons_safe (by decide) ?_)
    exact hv t (List.mem_singleton.2 rfl)
  | int n => exact hph
  | str s => exact hph
  | bool b => exact hph
  | null => exact hph
  | undef => exact hph

theorem occ_cellFrag (e : TupleEntry)
    (hv : ∀ v, e = .val v → ∀ s ∈ valStrings v, occursIn wpat s.data = false) :
    occursIn wpat (charsOfQ (cellFrag e).text) = false := by
  cases e with
  | dflt => decide
  | val v =>
    cases v with
    | raw t =>
      show occursIn wpat (t.data ++ []) = false
      rw [List.append_nil]
      exact hv (.raw t) rfl t (List.mem_singleton.2 rfl)
    | null => decide
    | int n =>
      show occursIn wpat (['$'] ++ []) = false
      decide
    | str s =>
      show occursIn wpat (['$'] ++ []) = false
      decide
    | bool b =>
      show occursIn wpat (['$'] ++ []) = false
      decide
    | undef =>
      show occursIn wpat (['$'] ++ []) = false
      decide

theorem occ_rowFrag (cells : List TupleEntry)
    (h : ∀ e ∈ cells, occursIn wpat (charsOfQ (cellFrag e).text) = false) :
    occursIn wpat (charsOfQ (rowFrag cells).text) = false := by
  have hj : occursIn wpat
      (charsOfQ (joinFrags (.str ", ") (cells.map cellFrag)).text) = false := by
    refine occ_joinFrags
      (by decide : (", " : String).data = ',' :: [' ']) (by decide)
      (by decide) _ (fun f hf => ?_)
    rcases List.mem_map.1 hf with ⟨e, he, rfl⟩
    exact h e he
  have hsplit : charsOfQ (rowFrag cells).text =
      '(' :: (charsOfQ (joinFrags (Tok.str ", ") (cells.map cellFrag)).text ++
        (')' :: [])) := by
    show charsOfQ (.str "(" ::
      ((joinFrags (Tok.str ", ") (cells.map cellFrag)).text ++ [.str ")"])) = _
    show "(".data ++ cmap tokCharsQ
      ((joinFrags (Tok.str ", ") (cells.map cellFrag)).text ++ [.str ")"]) = _
    rw [cmap_append]
    rfl
  rw [hsplit]
  exact occ_cons_safe (by decide) (occ_seam hj (by decide) occ_wpat_nil)

theorem occ_updateFrag {ctx : Ctx}
    (hfrm : ∀ s ∈ ctx.frm, occursIn wpat s.data = false)
    (hsets : ∀ kv ∈ ctx.sets, occursIn wpat kv.1.data = false ∧
      ∀ s ∈ valStrings kv.2, occursIn wpat s.data = false) :
    occursIn wpat (charsOfQ (updateFrag ctx).text) = false := by
  have hitems : occursIn wpat
      (charsOfQ (joinFrags (.str ", ") (ctx.sets.map setItem)).text) = false := by
    refine occ_joinFrags
      (by decide : (", " : String).data = ',' :: [' ']) (by decide)
      (by decide) _ (fun f hf => ?_)
    rcases List.mem_map.1 hf with ⟨kv, hkv, rfl⟩
    exact occ_setItem (hsets kv hkv).1 (hsets kv hkv).2
  have htail1 : occursIn wpat ("set".data ++ (' ' ::
      charsOfQ (joinFrags (Tok.str ", ") (ctx.sets.map setItem)).text)) = false :=
    occ_seam (by decide) (by decide) hitems
  have htail0 : occursIn wpat ((targetTable ctx).data ++ (' ' ::
      ("set".data ++ (' ' ::
        charsOfQ (joinFrags (Tok.str ", ") (ctx.sets.map setItem)).text)))) = false :=
    occ_seam (occ_targetTable hfrm) (by decide) htail1
  show occursIn wpat ("update ".data ++ ((targetTable ctx).data ++
    (" set ".data ++
      charsOfQ (joinFrags (Tok.str ", ") (ctx.sets.map setItem)).text))) = false
  exact occ_prefix_lit "update " ("update".data) _ (by decide) (by decide) htail0

theorem lookupKey_mem {r : List (String × Val)} {k : String} {v : Val}
    (h : lookupKey r k = some v) : (k, v) ∈ r := by
  induction r with
  | nil => simp [lookupKey] at h
  | cons kv r ih =>
    unfold lookupKey at h
    by_cases he : kv.1 = k
    · rw [if_pos he] at h
      simp only [Option.some_inj] at h
      have : kv = (k, v) := by
        rcases kv with ⟨k1, v1⟩
        simp only at he h
        rw [he, h]
      rw [← this]
      exact List.mem_cons_self kv r
    · rw [if_neg he] at h
      exact List.mem_cons_of_mem _ (ih h)

theorem occ_insRowsPart (rows : List Frag)
    (h : ∀ f ∈ rows, occursIn wpat (charsOfQ f.text) = false) :
    occursIn wpat (charsOfQ (joinFrags (.str ", ") rows).text) = false :=
  occ_joinFrags (by decide : (", " : String).data = ',' :: [' ']) (by decide)
    (by decide) rows h

theorem occ_insertFrag {ctx : Ctx} {f : Frag} (h : insertFrag ctx = .ok f)
    (hfrm : ∀ s ∈ ctx.frm, occursIn wpat s.data = false)
    (hcols : ∀ s ∈ ctx.insCols, occursIn wpat s.data = false)
    (hvals : ∀ r ∈ ctx.insVals, ∀ v ∈ r, ∀ s ∈ valStrings v,
      occursIn wpat s.data = false)
    (hrows : ∀ r ∈ ctx.insRows, ∀ kv ∈ r, occursIn wpat kv.1.data = false ∧
      ∀ s ∈ valStrings kv.2, occursIn wpat s.data = false) :
    occursIn wpat (charsOfQ f.text) = false := by
  unfold insertFrag at h
  by_cases hre : ctx.insRows.isEmpty
  · simp only [hre, if_true, ite_true] at h
    by_cases ha : (ctx.insVals.any fun r => r.length != ctx.insCols.length) = true
    · simp [ha] at h
    · simp only [ha, Bool.false_eq_true, if_false, ite_false,
        Except.ok.injEq] at h
      subst h
      have hrowsafe : occursIn wpat (charsOfQ (joinFrags (.str ", ")
          (ctx.insVals.map fun r => rowFrag (r.map TupleEntry.val))).text) = false := by
        refine occ_insRowsPart _ (fun g hg => ?_)
        rcases List.mem_map.1 hg with ⟨r, hr, rfl⟩
        refine occ_rowFrag _ (fun e he => ?_)
        rcases List.mem_map.1 he with ⟨v, hvmem, rfl⟩
        refine occ_cellFrag _ (fun v' hv' s hs => ?_)
        have hveq : v' = v := by
          injection hv' with hv3
          exact hv3.symm
        subst hveq
        exact hvals r hr v' hvmem s hs
      have hcolsafe : occursIn wpat (joinSepStr ", " ctx.insCols).data = false :=
        occ_joinSepStr hcols
      have ht3 : occursIn wpat ("values".data ++ (' ' ::
          charsOfQ (joinFrags (Tok.str ", ")
            (ctx.insVals.map fun r => rowFrag (r.map TupleEntry.val))).text)) = false :=
        occ_seam (by decide) (by decide) hrowsafe
      have ht2 : occursIn wpat ((joinSepStr ", " ctx.insCols).data ++ (')' ::
          (' ' :: ("values".data ++ (' ' ::
            charsOfQ (joinFrags (Tok.str ", ")
              (ctx.insVals.map fun r => rowFrag (r.map TupleEntry.val))).text))))) = false :=
        occ_seam hcolsafe (by decide) (occ_cons_safe (by decide) ht3)
      have ht1 : occursIn wpat ((targetTable ctx).data ++ (' ' :: ('(' ::
          ((joinSepStr ", " ctx.insCols).data ++ (')' ::
          (' ' :: ("values".data ++ (' ' ::
            charsOfQ (joinFrags (Tok.str ", ")
              (ctx.insVals.map fun r => rowFrag (r.map TupleEntry.val))).text)))))))) = false :=
        occ_seam (occ_targetTable hfrm) (by decide) (occ_cons_safe (by decide) ht2)
      show occursIn wpat ("insert into ".data ++ ((targetTable ctx).data ++
        (" (".data ++ ((joinSepStr ", " ctx.insCols).data ++
          (") values ".data ++ charsOfQ (joinFrags (Tok.str ", ")
            (ctx.insVals.map fun r => rowFrag (r.map TupleEntry.val))).text))))) = false
      exact occ_prefix_lit "insert into " ("insert into".data) _ (by decide)
        (by decide) ht1
  · simp only [hre, Bool.false_eq_true, if_false, ite_false,
      Except.ok.injEq] at h
    subst h
    have hrowsafe : occursIn wpat (charsOfQ (joinFrags (.str ", ")
        (ctx.insRows.map fun r =>
          rowFrag (rowTuple (firstSeenKeys ctx.insRows) r))).text) = false := by
      refine occ_insRowsPart _ (fun g hg => ?_)
      rcases List.mem_map.1 hg with ⟨r, hr, rfl⟩
      refine occ_rowFrag _ (fun e he => ?_)
      rcases List.mem_map.1 he with ⟨k, hkmem, rfl⟩
      refine occ_cellFrag _ (fun v' hv' s hs => ?_)
      unfold entryOf at hv'
      cases hlk : lookupKey r k with
      | none => rw [hlk] at hv'; exact absurd hv' (by simp)
      | some v =>
        rw [hlk] at hv'
        cases v with
        | undef => exact absurd hv' (by simp)
        | raw t =>
          have hv2 : v' = Val.raw t := by
            simp only [Val.raw.injEq] at hv' ⊢
            injection hv' with hv3
            exact hv3.symm
          subst hv2
          exact (hrows r hr (k, .raw t) (lookupKey_mem hlk)).2 s hs
        | int n =>
          have hv2 : v' = Val.int n := by
            injection hv' with hv3
            exact hv3.symm
          subst hv2
          simp [valStrings] at hs
        | str s2 =>
          have hv2 : v' = Val.str s2 := by
            injection hv' with hv3
            exact hv3.symm
          subst hv2
          simp [valStrings] at hs
        | bool b =>
          have hv2 : v' = Val.bool b := by
            injection hv' with hv3
            exact hv3.symm
          subst hv2
          simp [valStrings] at hs
        | null =>
          have hv2 : v' = Val.null := by
            injection hv' with hv3
            exact hv3.symm
          subst hv2
          simp [valStrings] at hs
    have hcolsafe : occursIn wpat
        (joinSepStr ", " (firstSeenKeys ctx.insRows)).data = false := by
      refine occ_joinSepStr (fun s hs => ?_)
      rcases mem_firstSeenKeys.1 hs with ⟨r, hr, hsk⟩
      rcases List.mem_map.1 hsk with ⟨kv, hkv, rfl⟩
      exact (hrows r hr kv hkv).1
    have ht3 : occursIn wpat ("values".data ++ (' ' ::
        charsOfQ (joinFrags (Tok.str ", ")
          (ctx.insRows.map fun r =>
            rowFrag (rowTuple (firstSeenKeys ctx.insRows) r))).text)) = false :=
      occ_seam (by decide) (by decide) hrowsafe
    have ht2 : occursIn wpat
        ((joinSepStr ", " (firstSeenKeys ctx.insRows)).data ++ (')' ::
        (' ' :: ("values".data ++ (' ' ::
          charsOfQ (joinFrags (Tok.str ", ")
            (ctx.insRows.map fun r =>
              rowFrag (rowTuple (firstSeenKeys ctx.insRows) r))).text))))) = false :=
      occ_seam hcolsafe (by decide) (occ_cons_safe (by decide) ht3)
    have ht1 : occursIn wpat ((targetTable ctx).data ++ (' ' :: ('(' ::
        ((joinSepStr ", " (firstSeenKeys ctx.insRows)).data ++ (')' ::
        (' ' :: ("values".data ++ (' ' ::
          charsOfQ (joinFrags (Tok.str ", ")
            (ctx.insRows.map fun r =>
              rowFrag (rowTuple (firstSeenKeys ctx.insRows) r))).text)))))))) = false :=
      occ_seam (occ_targetTable hfrm) (by decide) (occ_cons_safe (by decide) ht2)
    show occursIn wpat ("insert into ".data ++ ((targetTable ctx).data ++
      (" (".data ++ ((joinSepStr ", " (firstSeenKeys ctx.insRows)).data ++
        (") values ".data ++ charsOfQ (joinFrags (Tok.str ", ")
          (ctx.insRows.map fun r =>
            rowFrag (rowTuple (firstSeenKeys ctx.insRows) r))).text))))) = false
    exact occ_prefix_lit "insert into " ("insert into".data) _ (by decide)
      (by decide) ht1

theorem mem_cmap_of {α β : Type} {f : α → List β} {l : List α} {x : α}
    {b : β} (hx : x ∈ l) (hb : b ∈ f x) : b ∈ cmap f l := by
  induction l with
  | nil => simp at hx
  | cons y ys ih =>
    rcases List.mem_cons.1 hx with rfl | hx
    · exact List.mem_append.2 (Or.inl hb)
    · exact List.mem_append.2 (Or.inr (ih hx))

theorem reduceStep_strings {ctx0 : Ctx} {c : MethodCall} {ctx1 : Ctx}
    (h : reduceStep ctx0 c = .ok ctx1) :
    ∀ s ∈ ctxStrings ctx1, s ∈ ctxStrings ctx0 ∨ s ∈ callStrings c := by
  intro s hs
  cases c with
  | frm ts =>
    simp only [reduceStep, Except.ok.injEq] at h
    subst h
    simp only [ctxStrings, callStrings, List.mem_append] at hs ⊢
    tauto
  | ret cols =>
    simp only [reduceStep, Except.ok.injEq] at h
    subst h
    simp only [ctxStrings, callStrings, List.mem_append] at hs ⊢
    tauto
  | whr args =>
    cases hj : args.any isJunk with
    | true => simp [reduceStep, hj] at h
    | false =>
      simp only [reduceStep, hj, Bool.false_eq_true, if_false, ite_false,
        Except.ok.injEq] at h
      subst h
      exact Or.inl hs
  | set assigns =>
    cases hk : setKind ctx0.kind .update with
    | error e => simp [reduceStep, hk, bind, Except.bind] at h
    | ok k =>
      simp only [reduceStep, hk, bind, Except.bind, Except.ok.injEq] at h
      subst h
      simp only [ctxStrings, callStrings, cmap_append, List.mem_append] at hs ⊢
      tauto
  | insCols cols =>
    cases hk : setKind ctx0.kind .insert with
    | error e => simp [reduceStep, hk, bind, Except.bind] at h
    | ok k =>
      simp only [reduceStep, hk, bind, Except.bind, Except.ok.injEq] at h
      subst h
      simp only [ctxStrings, callStrings, List.mem_append] at hs ⊢
      tauto
  | insVal vals =>
    cases hk : setKind ctx0.kind .insert with
    | error e => simp [reduceStep, hk, bind, Except.bind] at h
    | ok k =>
      simp only [reduceStep, hk, bind, Except.bind, Except.ok.injEq] at h
      subst h
      simp only [ctxStrings, callStrings, cmap_append, List.mem_append,
        cmap, List.append_nil] at hs ⊢
      tauto
  | insRows rows =>
    cases hk : setKind ctx0.kind .insert with
    | error e => simp [reduceStep, hk, bind, Except.bind] at h
    | ok k =>
      simp only [reduceStep, hk, bind, Except.bind, Except.ok.injEq] at h
      subst h
      simp only [ctxStrings, callStrings, cmap_append, List.mem_append] at hs ⊢
      tauto
  | del =>
    cases hk : setKind ctx0.kind .delete with
    | error e => simp [reduceStep, hk, bind, Except.bind] at h
    | ok k =>
      simp only [reduceStep, hk, bind, Except.bind, Except.ok.injEq] at h
      subst h
      exact Or.inl hs

theorem reduceAux_strings {log : List MethodCall} {ctx0 ctx : Ctx}
    (h : reduceAux ctx0 log = .ok ctx) :
    ∀ s ∈ ctxStrings ctx, s ∈ ctxStrings ctx0 ∨ s ∈ argStrings log := by
  induction log generalizing ctx0 with
  | nil =>
    simp only [reduceAux, Except.ok.injEq] at h
    subst h
    exact fun s hs => Or.inl hs
  | cons c cs ih =>
    cases hstep : reduceStep ctx0 c with
    | error e => simp [reduceAux, hstep, bind, Except.bind] at h
    | ok ctx1 =>
      simp only [reduceAux, hstep, bind, Except.bind] at h
      intro s hs
      rcases ih h s hs with h1 | h1
      · rcases reduceStep_strings hstep s h1 with h2 | h2
        · exact Or.inl h2
        · exact Or.inr (List.mem_append.2 (Or.inl h2))
      · exact Or.inr (List.mem_append.2 (Or.inr h1))

theorem reduceAux_whr_const {log : List MethodCall} {ctx0 ctx : Ctx}
    (h : reduceAux ctx0 log = .ok ctx) (hw : noWhrB log = true) :
    ctx.whr = ctx0.whr := by
  induction log generalizing ctx0 with
  | nil =>
    simp only [reduceAux, Except.ok.injEq] at h
    subst h
    rfl
  | cons c cs ih =>
    have hw2 : noWhrB cs = true ∧ callNoWhrB c = true := by
      simp only [noWhrB, List.all_cons, Bool.and_eq_true] at hw
      exact ⟨hw.2, hw.1⟩
    cases hstep : reduceStep ctx0 c with
    | error e => simp [reduceAux, hstep, bind, Except.bind] at h
    | ok ctx1 =>
      simp only [reduceAux, hstep, bind, Except.bind] at h
      rw [ih h hw2.1]
      cases c with
      | whr args => exact absurd hw2.2 (by simp [callNoWhrB])
      | frm ts =>
        simp only [reduceStep, Except.ok.injEq] at hstep
        subst hstep
        rfl
      | ret cols =>
        simp only [reduceStep, Except.ok.injEq] at hstep
        subst hstep
        rfl
      | set assigns =>
        cases hk : setKind ctx0.kind .update with
        | error e => simp [reduceStep, hk, bind, Except.bind] at hstep
        | ok k =>
          simp only [reduceStep, hk, bind, Except.bind, Except.ok.injEq] at hstep
          subst hstep
          rfl
      | insCols cols =>
        cases hk : setKind ctx0.kind .insert with
        | error e => simp [reduceStep, hk, bind, Except.bind] at hstep
        | ok k =>
          simp only [reduceStep, hk, bind, Except.bind, Except.ok.injEq] at hstep
          subst hstep
          rfl
      | insVal vals =>
        cases hk : setKind ctx0.kind .insert with
        | error e => simp [reduceStep, hk, bind, Except.bind] at hstep
        | ok k =>
          simp only [reduceStep, hk, bind, Except.bind, Except.ok.injEq] at hstep
          subst hstep
          rfl
      | insRows rows =>
        cases hk : setKind ctx0.kind .insert with
        | error e => simp [reduceStep, hk, bind, Except.bind] at hstep
        | ok k =>
          simp only [reduceStep, hk, bind, Except.bind, Except.ok.injEq] at hstep
          subst hstep
          rfl
      | del =>
        cases hk : setKind ctx0.kind .delete with
        | error e => simp [reduceStep, hk, bind, Except.bind] at hstep
        | ok k =>
          simp only [reduceStep, hk, bind, Except.bind, Except.ok.injEq] at hstep
          subst hstep
          rfl

theorem whereFrag_of_no_nodes {whr : List (List WhereArg)}
    (h : whereNodes whr = []) : whereFrag whr = none := by
  unfold whereFrag
  by_cases he : whr.isEmpty
  · simp [he]
  · simp only [he, Bool.false_eq_true, if_false, ite_false]
    rw [h]
    rfl

theorem occ_genFrags {ctx : Ctx} {frags : List Frag}
    (hg : genFrags ctx = .ok frags) (hwhr : ctx.whr = [])
    (hstr : ∀ s ∈ ctxStrings ctx, occursIn wpat s.data = false) :
    ∀ f ∈ frags, occursIn wpat (charsOfQ f.text) = false := by
  have hfrm : ∀ s ∈ ctx.frm, occursIn wpat s.data = false := by
    intro s hs
    refine hstr s ?_
    simp only [ctxStrings, List.mem_append]
    tauto
  have hret : ∀ s ∈ ctx.ret, occursIn wpat s.data = false := by
    intro s hs
    refine hstr s ?_
    simp only [ctxStrings, List.mem_append]
    tauto
  have hcols : ∀ s ∈ ctx.insCols, occursIn wpat s.data = false := by
    intro s hs
    refine hstr s ?_
    simp only [ctxStrings, List.mem_append]
    tauto
  have hsets : ∀ kv ∈ ctx.sets, occursIn wpat kv.1.data = false ∧
      ∀ s ∈ valStrings kv.2, occursIn wpat s.data = false := by
    intro kv hkv
    constructor
    · refine hstr kv.1 ?_
      have hmem := mem_cmap_of (f := fun kv => kv.1 :: valStrings kv.2) hkv
        (List.mem_cons_self _ _)
      simp only [ctxStrings, List.mem_append]
      tauto
    · intro s hs
      refine hstr s ?_
      have hmem := mem_cmap_of (f := fun kv => kv.1 :: valStrings kv.2) hkv
        (List.mem_cons_of_mem _ hs)
      simp only [ctxStrings, List.mem_append]
      tauto
  have hvals : ∀ r ∈ ctx.insVals, ∀ v ∈ r, ∀ s ∈ valStrings v,
      occursIn wpat s.data = false := by
    intro r hr v hv s hs
    refine hstr s ?_
    have hmem := mem_cmap_of (f := fun r => cmap valStrings r) hr
      (mem_cmap_of hv hs)
    simp only [ctxStrings, List.mem_append]
    tauto
  have hrows : ∀ r ∈ ctx.insRows, ∀ kv ∈ r,
      occursIn wpat kv.1.data = false ∧
      ∀ s ∈ valStrings kv.2, occursIn wpat s.data = false := by
    intro r hr kv hkv
    constructor
    · refine hstr kv.1 ?_
      have hmem := mem_cmap_of
        (f := fun r => cmap (fun kv => kv.1 :: valStrings kv.2) r) hr
        (mem_cmap_of (f := fun kv => kv.1 :: valStrings kv.2) hkv
          (List.mem_cons_self _ _))
      simp only [ctxStrings, List.mem_append]
      tauto
    · intro s hs
      refine hstr s ?_
      have hmem := mem_cmap_of
        (f := fun r => cmap (fun kv => kv.1 :: valStrings kv.2) r) hr
        (mem_cmap_of (f := fun kv => kv.1 :: valStrings kv.2) hkv
          (List.mem_cons_of_mem _ hs))
      simp only [ctxStrings, List.mem_append]
      tauto
  have hwf : whereFrag ctx.whr = none := by
    rw [hwhr]
    rfl
  intro f hf
  unfold genFrags at hg
  cases hk : ctx.kind with
  | select =>
    rw [hk] at hg
    rw [hwf] at hg
    simp only [Except.ok.injEq] at hg
    subst hg
    simp only [optList, List.append_nil, List.mem_append,
      List.mem_singleton] at hf
    rcases hf with rfl | hf
    · exact occ_selectFrag hret
    · exact occ_fromFrag (mem_optList hf) hfrm
  | delete =>
    rw [hk] at hg
    by_cases he : ctx.frm.isEmpty
    · simp [he] at hg
    · simp only [he, Bool.false_eq_true, if_false, ite_false,
        Except.ok.injEq] at hg
      rw [hwf] at hg
      subst hg
      simp only [optList, List.append_nil, List.mem_append,
        List.mem_singleton] at hf
      rcases hf with (rfl | hf) | hf
      · show occursIn wpat ("delete".data ++ []) = false
        decide
      · exact occ_fromFrag (mem_optList hf) hfrm
      · exact occ_returningFrag (mem_optList hf) hret
  | update =>
    rw [hk] at hg
    by_cases he : ctx.frm.isEmpty
    · simp [he] at hg
    · simp only [he, Bool.false_eq_true, if_false, ite_false,
        Except.ok.injEq] at hg
      rw [hwf] at hg
      subst hg
      simp only [optList, List.append_nil, List.mem_append,
        List.mem_singleton] at hf
      rcases hf with rfl | hf
      · exact occ_updateFrag hfrm hsets
      · exact occ_returningFrag (mem_optList hf) hret
  | insert =>
    rw [hk] at hg
    by_cases he : ctx.frm.isEmpty
    · simp [he] at hg
    · simp only [he, Bool.false_eq_true, if_false, ite_false] at hg
      cases hins : insertFrag ctx with
      | error e => simp [hins, bind, Except.bind] at hg
      | ok g =>
        simp only [hins, bind, Except.bind, Except.ok.injEq] at hg
        subst hg
        simp only [List.mem_append, List.mem_singleton] at hf
        rcases hf with rfl | hf
        · exact occ_insertFrag hins hfrm hcols hvals hrows
        · exact occ_returningFrag (mem_optList hf) hret

/-- Does the compiled text of a log contain the substring `where`? -/
def compiledContainsWhere (log : List MethodCall) : Bool :=
  match compile log with
  | .ok stmt => occursIn wpat (charsOfS stmt.text)
  | .error _ => false

/-! ## Claim theorems -/

/-- **C1.** For every compiled Statement produced by assembly, the number
of positional placeholders in its text equals the length of its `args`
list, and reading the text left to right the placeholder indices are
exactly `1, 2, 3, ...` — strictly increasing, no gaps, no duplicates —
because assembly rewrites every fragment-local placeholder to its final
index in the concatenated argument list. -/
theorem c1_placeholder_alignment (log : List MethodCall) (stmt : Stmt)
    (hlog : logOkB log = true) (h : compile log = .ok stmt) :
    (phIdx stmt.text).length = stmt.args.length ∧
    phIdx stmt.text = seqFrom 1 stmt.args.length ∧
    (phIdx stmt.text).Pairwise (· < ·) := by
  rcases compile_ok_inversion h with ⟨ctx, frags, hr, hg, rfl⟩
  have hok := fragOk_genFrags hg (whrOkB_reduce hr hlog)
  have hmain := assemble_placeholders hok
  refine ⟨?_, hmain, ?_⟩
  · rw [hmain, seqFrom_length]
  · rw [hmain]
    exact seqFrom_pairwise_lt _ _

/-- A sample method log used to witness C1. -/
def c1Log : List MethodCall :=
  [.frm ["person"], .whr [.map [("a", .val (.int 1)), ("b", .val (.int 2))]],
   .whr [.tmpl ["c < ", ""] [.int 3]]]

/-- The statement compiled from `c1Log`. -/
def c1Stmt : Stmt := (compile c1Log).toOption.getD { text := [], args := [] }

/-- Witness for C1 at a concrete log: three arguments, placeholder indices
`[1, 2, 3]`. -/
theorem c1_placeholder_alignment_witness :
    logOkB c1Log = true ∧ compile c1Log = Except.ok c1Stmt ∧
    phIdx c1Stmt.text = seqFrom 1 c1Stmt.args.length ∧
    c1Stmt.args.length = 3 :=
  ⟨by decide, by decide,
   (c1_placeholder_alignment c1Log c1Stmt (by decide) (by decide)).2.1,
   by decide⟩

/-- **C5.** For every input value, `classify` returns `Parameter(value)`
unless the value carries the explicit raw-text opt-out marker produced by
the dedicated raw-text constructor, in which case — and only in which
case — it returns `Raw(text)`; classification never infers `Raw` from the
value's type or content. -/
theorem c5_classify_default_parameter (v : Val) :
    (∃ t, v = Val.raw t ∧ classify v = Escaped.rawText t) ∨
    ((∀ t, v ≠ Val.raw t) ∧ classify v = Escaped.param v) := by
  cases v with
  | raw t => exact Or.inl ⟨t, rfl, rfl⟩
  | int n => exact Or.inr ⟨fun t h => Val.noConfusion h, rfl⟩
  | str s => exact Or.inr ⟨fun t h => Val.noConfusion h, rfl⟩
  | bool b => exact Or.inr ⟨fun t h => Val.noConfusion h, rfl⟩
  | null => exact Or.inr ⟨fun t h => Val.noConfusion h, rfl⟩
  | undef => exact Or.inr ⟨fun t h => Val.noConfusion h, rfl⟩

/-- Witness for C5 at concrete values: a string whose content looks like
SQL is still a parameter, and a raw-marked value is raw text. -/
theorem c5_classify_default_parameter_witness :
    classify (Val.str "1; drop table person") =
      Escaped.param (Val.str "1; drop table person") ∧
    classify (Val.raw "now()") = Escaped.rawText "now()" := by
  constructor
  · rcases c5_classify_default_parameter (Val.str "1; drop table person") with
      ⟨t, ht, _⟩ | ⟨_, h⟩
    · exact Val.noConfusion ht
    · exact h
  · rcases c5_classify_default_parameter (Val.raw "now()") with
      ⟨t, ht, h⟩ | ⟨hn, _⟩
    · cases ht
      exact h
    · exact absurd rfl (hn "now()")

/-- **C7.** `render` walks a ConditionNode tree and parenthesizes a
compound child exactly when its top-level operator differs from the
parent's, and always parenthesizes a negation child; in particular
`render (disjoin (conjoin A B) (negate C))` produces text of the shape
`(A and B) or (not C)` — parentheses around the disjunction's two
children, none around the conjunction's individual leaves. -/
theorem c7_render_parenthesization (A B C : Frag) :
    render (disjoin (conjoin (.leaf A) (.leaf B)) (negate (.leaf C))) =
      { text := (.str "(" :: (A.text ++ .str " and " :: B.text) ++ [.str ")"]) ++
          .str " or " :: (.str "(" :: (.str "not " :: C.text) ++ [.str ")"]),
        args := (A.args ++ B.args) ++ C.args } ∧
    fragShow (render (disjoin (conjoin (.leaf A) (.leaf B)) (negate (.leaf C)))) =
      "(" ++ (fragShow A ++ (" and " ++ (fragShow B ++ (")" ++ (" or " ++
        ("(" ++ ("not " ++ (fragShow C ++ ")")))))))) ∧
    (∀ x y, needsParens .pAnd (.and x y) = false) ∧
    (∀ x y, needsParens .pOr (.or x y) = false) ∧
    (∀ x y, needsParens .pOr (.and x y) = true) ∧
    (∀ x y, needsParens .pAnd (.or x y) = true) ∧
    (∀ p x, needsParens p (.not x) = true) := by
  refine ⟨?_, ?_, fun x y => rfl, fun x y => rfl, fun x y => rfl,
    fun x y => rfl, fun p x => rfl⟩
  · simp [render, disjoin, conjoin, negate, needsParens, paren]
  · simp [render, disjoin, conjoin, negate, needsParens, paren, fragShow,
      toksShow, toksShow_append, tokShow, String.append_assoc]

/-- **C3.** `fromObjectShorthand` combines the key/value pairs of one
mapping with conjunction in mapping-insertion order, and the mapping
arguments of one call are combined with disjunction in argument order:
`{a: 1, b: 2}` renders as `a = ? and b = ?` with args `[1, 2]`, and two
mappings in one call render as the disjunction shaped
`(a = ? and b = ?) or (c = ?)`. -/
theorem c3_shorthand_conjunction_disjunction :
    ((fromObjectShorthand [("a", .val (.int 1)), ("b", .val (.int 2))]).map
      (fun n => (fragShow (render n), (render n).args)) =
      some ("a = ? and b = ?", [.int 1, .int 2])) ∧
    (∀ (k0 : String) (v0 : Val) (rest : List (String × Val)),
      (((k0, v0) :: rest).all fun kv => plainVal kv.2) = true →
      ∃ n, fromObjectShorthand (((k0, v0) :: rest).map
          fun kv => (kv.1, MapVal.val kv.2)) = some n ∧
        render n =
          { text := [.str (k0 ++ " = "), .ph] ++
              cmap (fun kv => [.str " and ", .str (kv.1 ++ " = "), .ph]) rest,
            args := ((k0, v0) :: rest).map Prod.snd }) ∧
    (∀ m1 m2 n1 n2, fromObjectShorthand m1 = some n1 →
      fromObjectShorthand m2 = some n2 →
      whereCallNode [.map m1, .map m2] = some (disjoin n1 n2)) ∧
    ((whereCallNode [.map [("a", .val (.int 1)), ("b", .val (.int 2))],
        .map [("c", .val (.int 3))]]).map
      (fun n => (fragShow (render n), (render n).args)) =
      some ("(a = ? and b = ?) or (c = ?)", [.int 1, .int 2, .int 3])) := by
  refine ⟨by decide, ?_, ?_, by decide⟩
  · intro k0 v0 rest hplain
    simp only [List.all_cons, Bool.and_eq_true] at hplain
    refine ⟨(rest.map (fun kv => pairLeaf kv.1 (MapVal.val kv.2))).foldl
      conjoin (pairLeaf k0 (MapVal.val v0)), ?_, ?_⟩
    · unfold fromObjectShorthand
      rw [List.map_map]
      simp only [List.map_cons, conjoinAll, Function.comp_def]
    · have hbare : ∀ l ∈ rest.map (fun kv => pairLeaf kv.1 (MapVal.val kv.2)),
          andBare l = true := by
        intro l hl
        rcases List.mem_map.1 hl with ⟨kv, hkv, rfl⟩
        rw [pairLeaf_plain (List.all_eq_true.1 hplain.2 kv hkv)]
        rfl
      have h0 : andBare (pairLeaf k0 (.val v0)) = true := by
        rw [pairLeaf_plain hplain.1]
        rfl
      rw [render_foldl_conjoin _ _ h0 hbare]
      rw [pairLeaf_plain hplain.1]
      rw [cmap_map, cmap_map]
      have htext : cmap (fun kv =>
          .str " and " :: (render (pairLeaf kv.1 (MapVal.val kv.2))).text) rest =
          cmap (fun kv => [.str " and ", .str (kv.1 ++ " = "), .ph]) rest := by
        refine cmap_congr (fun kv hkv => ?_)
        rw [pairLeaf_plain (List.all_eq_true.1 hplain.2 kv hkv)]
        rfl
      have hargs : cmap (fun kv =>
          (render (pairLeaf kv.1 (MapVal.val kv.2))).args) rest =
          cmap (fun kv => [kv.2]) rest := by
        refine cmap_congr (fun kv hkv => ?_)
        rw [pairLeaf_plain (List.all_eq_true.1 hplain.2 kv hkv)]
        rfl
      rw [htext, hargs, cmap_singleton]
      simp [render]
  · intro m1 m2 n1 n2 h1 h2
    simp [whereCallNode, h1, h2, disjoinAll, disjoin]

/-- Witness for C3: the general conjuncts applied at the concrete
mappings `{a: 1, b: 2}` and `{c: 3}`. -/
theorem c3_shorthand_conjunction_disjunction_witness :
    (∃ n, fromObjectShorthand [("a", MapVal.val (.int 1)),
        ("b", MapVal.val (.int 2))] = some n ∧
      render n = { text := [.str "a = ", .ph, .str " and ", .str "b = ", .ph],
                   args := [.int 1, .int 2] }) ∧
    whereCallNode [.map [("a", .val (.int 1)), ("b", .val (.int 2))],
        .map [("c", .val (.int 3))]] =
      some (disjoin (conjoin (.leaf { text := [.str "a = ", .ph], args := [.int 1] })
          (.leaf { text := [.str "b = ", .ph], args := [.int 2] }))
        (.leaf { text := [.str "c = ", .ph], args := [.int 3] })) := by
  constructor
  · rcases (c3_shorthand_conjunction_disjunction).2.1 "a" (.int 1)
      [("b", .int 2)] (by decide) with ⟨n, hn, hr⟩
    refine ⟨n, ?_, ?_⟩
    · simpa using hn
    · rw [hr]
      decide
  · exact (c3_shorthand_conjunction_disjunction).2.2.1
      [("a", .val (.int 1)), ("b", .val (.int 2))] [("c", .val (.int 3))]
      _ _ (by decide) (by decide)

/-- Witness for C7 at concrete leaf texts. -/
theorem c7_render_parenthesization_witness :
    fragShow (render (disjoin (conjoin (.leaf { text := [.str "A"], args := [] })
        (.leaf { text := [.str "B"], args := [] }))
      (negate (.leaf { text := [.str "C"], args := [] })))) =
      "(A and B) or (not C)" := by
  rw [(c7_render_parenthesization { text := [.str "A"], args := [] }
    { text := [.str "B"], args := [] } { text := [.str "C"], args := [] }).1]
  decide

/-- One chain operation: the new logical builder state extends the prior
log by the new call (spec §3 lifecycle). -/
def chain (b : List MethodCall) (c : MethodCall) : List MethodCall := b ++ [c]

/-- A whole continuation of chain operations from a builder state. -/
def extendAll (b : List MethodCall) (cs : List MethodCall) : List MethodCall :=
  cs.foldl chain b

/-- Two divergent continuations branched from the same builder prefix. -/
def branchBoth (base cs1 cs2 : List MethodCall) :
    List MethodCall × List MethodCall :=
  (extendAll base cs1, extendAll base cs2)

theorem extendAll_eq_append (base cs : List MethodCall) :
    extendAll base cs = base ++ cs := by
  induction cs generalizing base with
  | nil => simp [extendAll]
  | cons c cs ih =>
    show extendAll (chain base c) cs = _
    rw [ih, chain, List.append_assoc]
    rfl

/-- **C9.** The method log is append-only: each chain operation returns a
new logical state extending the prior log, so the same prefix can be
reused for two divergent continuations, each continuation's log is exactly
the prefix followed by its own calls, and neither continuation's calls (or
compiled output) depend on the other branch. -/
theorem c9_append_only_branching :
    (∀ b c, chain b c = b ++ [c]) ∧
    (∀ base cs, extendAll base cs = base ++ cs) ∧
    (∀ base cs1 cs2 cs2', (branchBoth base cs1 cs2).1 = (branchBoth base cs1 cs2').1) ∧
    (∀ base cs1 cs2, (branchBoth base cs1 cs2).1 = base ++ cs1 ∧
      (branchBoth base cs1 cs2).2 = base ++ cs2 ∧
      compile (branchBoth base cs1 cs2).1 = compile (base ++ cs1) ∧
      compile (branchBoth base cs1 cs2).2 = compile (base ++ cs2)) := by
  refine ⟨fun b c => rfl, extendAll_eq_append, fun base cs1 cs2 cs2' => rfl,
    fun base cs1 cs2 => ?_⟩
  refine ⟨extendAll_eq_append base cs1, extendAll_eq_append base cs2, ?_, ?_⟩
  · rw [show (branchBoth base cs1 cs2).1 = extendAll base cs1 from rfl,
      extendAll_eq_append]
  · rw [show (branchBoth base cs1 cs2).2 = extendAll base cs2 from rfl,
      extendAll_eq_append]

/-- Witness for C9 at a concrete prefix with two divergent continuations:
the select continuation's compiled text is unaffected by the delete
branch. -/
theorem c9_append_only_branching_witness :
    (branchBoth [MethodCall.frm ["person"]] [MethodCall.ret ["a"]]
        [MethodCall.del]).1 =
      [MethodCall.frm ["person"], MethodCall.ret ["a"]] ∧
    (branchBoth [MethodCall.frm ["person"]] [MethodCall.ret ["a"]]
        [MethodCall.del]).2 =
      [MethodCall.frm ["person"], MethodCall.del] ∧
    compile (branchBoth [MethodCall.frm ["person"]] [MethodCall.ret ["a"]]
        [MethodCall.del]).1 =
      compile [MethodCall.frm ["person"], MethodCall.ret ["a"]] := by
  refine ⟨?_, ?_, ?_⟩
  · exact (c9_append_only_branching.2.2.2 [MethodCall.frm ["person"]]
      [MethodCall.ret ["a"]] [MethodCall.del]).1
  · exact (c9_append_only_branching.2.2.2 [MethodCall.frm ["person"]]
      [MethodCall.ret ["a"]] [MethodCall.del]).2.1
  · exact (c9_append_only_branching.2.2.2 [MethodCall.frm ["person"]]
      [MethodCall.ret ["a"]] [MethodCall.del]).2.2.1

theorem foldl_conjoin_and (ns : List CondNode) (a b : CondNode) :
    ∃ x y, ns.foldl conjoin (.and a b) = CondNode.and x y := by
  induction ns generalizing a b with
  | nil => exact ⟨a, b, rfl⟩
  | cons m ns ih =>
    show ∃ x y, ns.foldl conjoin (conjoin (.and a b) m) = CondNode.and x y
    exact ih (.and a b) m

theorem args_if_paren (b : Bool) (f : Frag) :
    (if b then paren f else f).args = f.args := by
  cases b <;> rfl

/-- **C8.** When the conditions-building clause is invoked multiple times,
the Context Reducer keeps each call as its own entry and the calls are
combined with `conjoin`, each call keeping its own ConditionNode subtree
(never merged into one Leaf); the rendered conditions of the distinct
calls are joined by a newline separator in the output text, with the
argument lists concatenated exactly as `conjoin` would concatenate them. -/
theorem c8_multiple_where_calls :
    (∀ ctx args ctx', reduceStep ctx (.whr args) = .ok ctx' →
      ctx'.whr = ctx.whr ++ [args]) ∧
    (∀ n1 n2, conjoinAll [n1, n2] = some (conjoin n1 n2)) ∧
    (∀ n1 n2 ns n, conjoinAll (n1 :: n2 :: ns) = some n →
      ∀ f, n ≠ CondNode.leaf f) ∧
    (∀ n1 n2, (render (conjoin n1 n2)).args =
      (render n1).args ++ (render n2).args) ∧
    (∀ whr n1 n2, whereNodes whr = [n1, n2] →
      whereFrag whr = some
        ⟨.str "where " :: ((render n1).text ++ .str "\x0a" :: (render n2).text),
         (render n1).args ++ (render n2).args⟩) := by
  refine ⟨?_, fun n1 n2 => rfl, ?_, ?_, ?_⟩
  · intro ctx args ctx' hstep
    cases hj : args.any isJunk with
    | true => simp [reduceStep, hj] at hstep
    | false =>
      simp only [reduceStep, hj, Bool.false_eq_true, if_false, ite_false,
        Except.ok.injEq] at hstep
      subst hstep
      rfl
  · intro n1 n2 ns n hn f
    simp only [conjoinAll, List.foldl_cons, Option.some_inj] at hn
    rcases foldl_conjoin_and ns n1 n2 with ⟨x, y, hxy⟩
    rw [show List.foldl conjoin (conjoin n1 n2) ns =
      List.foldl conjoin (.and n1 n2) ns from rfl, hxy] at hn
    subst hn
    exact fun h => CondNode.noConfusion h
  · intro n1 n2
    show (render (.and n1 n2)).args = _
    rw [render]
    simp [args_if_paren]
  · intro whr n1 n2 hnodes
    have hne : whr ≠ [] := by
      intro he
      rw [he] at hnodes
      exact List.noConfusion hnodes
    have hisem : whr.isEmpty = false := by
      cases whr with
      | nil => exact absurd rfl hne
      | cons c cs => rfl
    rw [whereFrag, hisem, hnodes]
    show (if (joinFrags (.str "\x0a")
        [render n1, render n2]).text.isEmpty = true then _ else _) = _
    have hjoin : joinFrags (.str "\x0a") [render n1, render n2] =
        ⟨(render n1).text ++ .str "\x0a" :: (render n2).text,
         (render n1).args ++ (render n2).args⟩ := by
      simp [joinFrags]
    rw [hjoin]
    have hnonempty : ((render n1).text ++
        .str "\x0a" :: (render n2).text).isEmpty = false := by
      cases h1 : (render n1).text with
      | nil => rfl
      | cons t ts => rfl
    simp only [hnonempty, Bool.false_eq_true, if_false, ite_false]
    simp only [List.map_cons, List.map_nil, hjoin]

/-- Witness for C8 at two concrete where calls. -/
theorem c8_multiple_where_calls_witness :
    whereFrag [[.tmpl ["a > ", ""] [.int 1]], [.tmpl ["b < ", ""] [.int 2]]] =
      some
        ⟨.str "where " ::
          ([.str "a > ", .ph, .str ""] ++ .str "\x0a" :: [.str "b < ", .ph, .str ""]),
         [.int 1, .int 2]⟩ := by
  have h := (c8_multiple_where_calls).2.2.2.2
    [[.tmpl ["a > ", ""] [.int 1]], [.tmpl ["b < ", ""] [.int 2]]]
    (.leaf { text := [.str "a > ", .ph, .str ""], args := [.int 1] })
    (.leaf { text := [.str "b < ", .ph, .str ""], args := [.int 2] })
    (by decide)
  simpa [render] using h

theorem str_length_pos {s : String} (h : s ≠ "") : 0 < s.length := by
  have hd : s.data ≠ [] := fun hnil => h (String.ext hnil)
  calc 0 < s.data.length := List.length_pos.2 hd
    _ = s.length := rfl

/-- **C10.** The WHERE generator returns no fragment when the `whr` bucket
is empty; on a non-empty bucket it returns `where ` concatenated with the
rendered condition text when that text is non-empty, and otherwise returns
the empty (falsy) rendering itself — no fragment — without raising.  Any
non-empty output strictly extends the prefix `where `; the bare keyword
`where` is never emitted. -/
theorem c10_where_generator (ctx : Ctx) :
    (ctx.whr = [] → whereGenSrc ctx = none) ∧
    (whereGenSrc ctx = none → ctx.whr = []) ∧
    (conditions ctx.whr ≠ "" → ctx.whr ≠ [] →
      whereGenSrc ctx = some ("where " ++ conditions ctx.whr)) ∧
    (conditions ctx.whr = "" → ctx.whr ≠ [] → whereGenSrc ctx = some "") ∧
    (∀ s, whereGenSrc ctx = some s → s ≠ "" →
      s = "where " ++ conditions ctx.whr ∧ 6 < s.length ∧
      s ≠ "where" ∧ s ≠ "where ") := by
  by_cases h0 : ctx.whr.length = 0
  · have he : ctx.whr = [] := List.length_eq_zero.1 h0
    refine ⟨fun _ => ?_, fun _ => he, fun _ hne => absurd he hne,
      fun _ hne => absurd he hne, fun s hs => ?_⟩
    · simp [whereGenSrc, h0]
    · rw [whereGenSrc, if_pos h0] at hs
      exact absurd hs (by simp)
  · have hne : ctx.whr ≠ [] := fun he => h0 (by simp [he])
    refine ⟨fun he => absurd he hne, fun hnone => ?_, fun htxt _ => ?_,
      fun htxt _ => ?_, fun s hs hsne => ?_⟩
    · rw [whereGenSrc, if_neg h0] at hnone
      exact absurd hnone (by simp)
    · rw [whereGenSrc, if_neg h0]
      simp [htxt]
    · rw [whereGenSrc, if_neg h0]
      simp [htxt]
    · rw [whereGenSrc, if_neg h0] at hs
      simp only [Option.some_inj] at hs
      by_cases htxt : conditions ctx.whr = ""
      · rw [if_pos htxt] at hs
        exact absurd hs.symm hsne
      · rw [if_neg htxt] at hs
        subst hs
        have hlen : ("where " ++ conditions ctx.whr).length =
            6 + (conditions ctx.whr).length :=
          String.length_append _ _
        have hpos := str_length_pos htxt
        refine ⟨rfl, by omega, fun heq => ?_, fun heq => ?_⟩
        · have h5 : ("where " ++ conditions ctx.whr).length = 5 := by
            rw [heq]
            rfl
          omega
        · have h6 : ("where " ++ conditions ctx.whr).length = 6 := by
            rw [heq]
            rfl
          omega

/-! ## Error-propagation machinery (C6) -/

/-- The statement kind a call demands, when it demands one. -/
def callKind : MethodCall → Option SKind
  | .set _ => some .update
  | .insCols _ => some .insert
  | .insVal _ => some .insert
  | .insRows _ => some .insert
  | .del => some .delete
  | _ => none

/-- The kinds demanded by a log, in order. -/
def kindsOf (log : List MethodCall) : List SKind := log.filterMap callKind

/-- Does a log demand two mutually exclusive statement kinds? -/
def hasConflictB (log : List MethodCall) : Bool :=
  (kindsOf log).any fun k => (kindsOf log).any fun j => k != j

/-- Does a call carry a malformed condition input? -/
def callJunkB : MethodCall → Bool
  | .whr args => args.any isJunk
  | _ => false

/-- Does a log contain a malformed condition input? -/
def hasJunkB (log : List MethodCall) : Bool :=
  log.any callJunkB

/-- Does the reduced context exhibit an insert column/value arity
mismatch? -/
def arityBadB (log : List MethodCall) : Bool :=
  match reduce log with
  | .ok ctx => ctx.kind == .insert && ctx.insRows.isEmpty &&
      ctx.insVals.any fun r => r.length != ctx.insCols.length
  | .error _ => false

/-- Does the reduced context require a target table and lack one? -/
def noTargetB (log : List MethodCall) : Bool :=
  match reduce log with
  | .ok ctx => ctx.kind != .select && ctx.frm.isEmpty
  | .error _ => false

/-- Does compilation fail (raise an error rather than return a
statement)? -/
def compileFails (log : List MethodCall) : Bool :=
  match compile log with
  | .ok _ => false
  | .error _ => true

theorem callKind_ne_select {c : MethodCall} {k : SKind}
    (h : callKind c = some k) : k ≠ .select := by
  cases c <;> simp [callKind] at h <;> subst h <;> simp

theorem reduceStep_kind_none {ctx ctx' : Ctx} {c : MethodCall}
    (hck : callKind c = none) (h : reduceStep ctx c = .ok ctx') :
    ctx'.kind = ctx.kind := by
  cases c with
  | frm ts =>
    simp only [reduceStep, Except.ok.injEq] at h
    subst h
    rfl
  | ret cols =>
    simp only [reduceStep, Except.ok.injEq] at h
    subst h
    rfl
  | whr args =>
    cases hj : args.any isJunk with
    | true => simp [reduceStep, hj] at h
    | false =>
      simp only [reduceStep, hj, Bool.false_eq_true, if_false, ite_false,
        Except.ok.injEq] at h
      subst h
      rfl
  | set assigns => simp [callKind] at hck
  | insCols cols => simp [callKind] at hck
  | insVal vals => simp [callKind] at hck
  | insRows rows => simp [callKind] at hck
  | del => simp [callKind] at hck

theorem setKind_ok {cur next k : SKind} (h : setKind cur next = .ok k) :
    k = next ∧ (cur = .select ∨ cur = next) := by
  unfold setKind at h
  by_cases hc : cur = .select ∨ cur = next
  · rw [if_pos hc] at h
    simp only [Except.ok.injEq] at h
    exact ⟨h.symm, hc⟩
  · rw [if_neg hc] at h
    exact absurd h (by simp)

theorem reduceStep_kind_some {ctx ctx' : Ctx} {c : MethodCall} {k : SKind}
    (hck : callKind c = some k) (h : reduceStep ctx c = .ok ctx') :
    ctx'.kind = k ∧ (ctx.kind = .select ∨ ctx.kind = k) := by
  cases c with
  | set assigns =>
    simp only [callKind, Option.some_inj] at hck
    subst hck
    cases hk : setKind ctx.kind .update with
    | error e => simp [reduceStep, hk, bind, Except.bind] at h
    | ok k' =>
      simp only [reduceStep, hk, bind, Except.bind, Except.ok.injEq] at h
      subst h
      rcases setKind_ok hk with ⟨rfl, hor⟩
      exact ⟨rfl, hor⟩
  | insCols cols =>
    simp only [callKind, Option.some_inj] at hck
    subst hck
    cases hk : setKind ctx.kind .insert with
    | error e => simp [reduceStep, hk, bind, Except.bind] at h
    | ok k' =>
      simp only [reduceStep, hk, bind, Except.bind, Except.ok.injEq] at h
      subst h
      rcases setKind_ok hk with ⟨rfl, hor⟩
      exact ⟨rfl, hor⟩
  | insVal vals =>
    simp only [callKind, Option.some_inj] at hck
    subst hck
    cases hk : setKind ctx.kind .insert with
    | error e => simp [reduceStep, hk, bind, Except.bind] at h
    | ok k' =>
      simp only [reduceStep, hk, bind, Except.bind, Except.ok.injEq] at h
      subst h
      rcases setKind_ok hk with ⟨rfl, hor⟩
      exact ⟨rfl, hor⟩
  | insRows rows =>
    simp only [callKind, Option.some_inj] at hck
    subst hck
    cases hk : setKind ctx.kind .insert with
    | error e => simp [reduceStep, hk, bind, Except.bind] at h
    | ok k' =>
      simp only [reduceStep, hk, bind, Except.bind, Except.ok.injEq] at h
      subst h
      rcases setKind_ok hk with ⟨rfl, hor⟩
      exact ⟨rfl, hor⟩
  | del =>
    simp only [callKind, Option.some_inj] at hck
    subst hck
    cases hk : setKind ctx.kind .delete with
    | error e => simp [reduceStep, hk, bind, Except.bind] at h
    | ok k' =>
      simp only [reduceStep, hk, bind, Except.bind, Except.ok.injEq] at h
      subst h
      rcases setKind_ok hk with ⟨rfl, hor⟩
      exact ⟨rfl, hor⟩
  | frm ts => simp [callKind] at hck
  | whr args => simp [callKind] at hck
  | ret cols => simp [callKind] at hck

theorem reduceAux_kind_fixed {log : List MethodCall} {ctx0 ctx : Ctx}
    (h : reduceAux ctx0 log = .ok ctx) (hk : ctx0.kind ≠ .select) :
    ctx.kind = ctx0.kind := by
  induction log generalizing ctx0 with
  | nil =>
    simp only [reduceAux, Except.ok.injEq] at h
    subst h
    rfl
  | cons c cs ih =>
    cases hstep : reduceStep ctx0 c with
    | error e => simp [reduceAux, hstep, bind, Except.bind] at h
    | ok ctx1 =>
      simp only [reduceAux, hstep, bind, Except.bind] at h
      cases hck : callKind c with
      | none =>
        have h1 := reduceStep_kind_none hck hstep
        rw [ih h (by rw [h1]; exact hk), h1]
      | some k =>
        rcases reduceStep_kind_some hck hstep with ⟨h1, hor⟩
        rcases hor with hsel | heq
        · exact absurd hsel hk
        · rw [ih h (by rw [h1]; exact heq ▸ hk), h1, heq]

theorem reduceAux_kinds {log : List MethodCall} {ctx0 ctx : Ctx}
    (h : reduceAux ctx0 log = .ok ctx) :
    ∀ k ∈ kindsOf log, ctx.kind = k := by
  induction log generalizing ctx0 with
  | nil => simp [kindsOf]
  | cons c cs ih =>
    cases hstep : reduceStep ctx0 c with
    | error e => simp [reduceAux, hstep, bind, Except.bind] at h
    | ok ctx1 =>
      simp only [reduceAux, hstep, bind, Except.bind] at h
      intro k hk
      cases hck : callKind c with
      | none =>
        have : kindsOf (c :: cs) = kindsOf cs := by
          simp [kindsOf, List.filterMap_cons, hck]
        rw [this] at hk
        exact ih h k hk
      | some j =>
        have hcons : kindsOf (c :: cs) = j :: kindsOf cs := by
          simp [kindsOf, List.filterMap_cons, hck]
        rw [hcons] at hk
        rcases List.mem_cons.1 hk with rfl | hk
        · rcases reduceStep_kind_some hck hstep with ⟨h1, _⟩
          rw [reduceAux_kind_fixed h (by rw [h1]; exact callKind_ne_select hck), h1]
        · exact ih h k hk

theorem reduce_ok_no_conflict {log : List MethodCall} {ctx : Ctx}
    (h : reduce log = .ok ctx) : hasConflictB log = false := by
  by_contra hc
  rw [Bool.not_eq_false, hasConflictB, List.any_eq_true] at hc
  rcases hc with ⟨k, hk, hc⟩
  rw [List.any_eq_true] at hc
  rcases hc with ⟨j, hj, hne⟩
  have h1 := reduceAux_kinds h k hk
  have h2 := reduceAux_kinds h j hj
  rw [h1] at h2
  simp [h2] at hne

theorem reduceAux_ok_no_junk {log : List MethodCall} {ctx0 ctx : Ctx}
    (h : reduceAux ctx0 log = .ok ctx) : hasJunkB log = false := by
  induction log generalizing ctx0 with
  | nil => rfl
  | cons c cs ih =>
    cases hstep : reduceStep ctx0 c with
    | error e => simp [reduceAux, hstep, bind, Except.bind] at h
    | ok ctx1 =>
      simp only [reduceAux, hstep, bind, Except.bind] at h
      have hrest := ih h
      cases c with
      | whr args =>
        cases hj : args.any isJunk with
        | true => simp [reduceStep, hj] at hstep
        | false =>
          have hcons : hasJunkB (MethodCall.whr args :: cs) =
              (args.any isJunk || hasJunkB cs) := rfl
          rw [hcons, hj, hrest]
          rfl
      | frm ts => simpa [hasJunkB, List.any_cons, callJunkB] using hrest
      | ret cols => simpa [hasJunkB, List.any_cons, callJunkB] using hrest
      | set assigns => simpa [hasJunkB, List.any_cons, callJunkB] using hrest
      | insCols cols => simpa [hasJunkB, List.any_cons, callJunkB] using hrest
      | insVal vals => simpa [hasJunkB, List.any_cons, callJunkB] using hrest
      | insRows rows => simpa [hasJunkB, List.any_cons, callJunkB] using hrest
      | del => simpa [hasJunkB, List.any_cons, callJunkB] using hrest

theorem reduceStep_error {ctx : Ctx} {c : MethodCall} {e : CompileError}
    (h : reduceStep ctx c = .error e) :
    e = .malformedCondition ∨ e = .conflictingStatementKind := by
  cases c with
  | whr args =>
    cases hj : args.any isJunk with
    | true =>
      simp only [reduceStep, hj, if_true, ite_true, Except.error.injEq] at h
      exact Or.inl h.symm
    | false =>
      simp [reduceStep, hj] at h
  | frm ts => simp [reduceStep] at h
  | ret cols => simp [reduceStep] at h
  | set assigns =>
    cases hk : setKind ctx.kind .update with
    | ok k => simp [reduceStep, hk, bind, Except.bind] at h
    | error e' =>
      simp only [reduceStep, hk, bind, Except.bind, Except.error.injEq] at h
      subst h
      unfold setKind at hk
      by_cases hc : ctx.kind = .select ∨ ctx.kind = .update
      · rw [if_pos hc] at hk
        exact absurd hk (by simp)
      · rw [if_neg hc] at hk
        simp only [Except.error.injEq] at hk
        exact Or.inr hk.symm
  | insCols cols =>
    cases hk : setKind ctx.kind .insert with
    | ok k => simp [reduceStep, hk, bind, Except.bind] at h
    | error e' =>
      simp only [reduceStep, hk, bind, Except.bind, Except.error.injEq] at h
      subst h
      unfold setKind at hk
      by_cases hc : ctx.kind = .select ∨ ctx.kind = .insert
      · rw [if_pos hc] at hk
        exact absurd hk (by simp)
      · rw [if_neg hc] at hk
        simp only [Except.error.injEq] at hk
        exact Or.inr hk.symm
  | insVal vals =>
    cases hk : setKind ctx.kind .insert with
    | ok k => simp [reduceStep, hk, bind, Except.bind] at h
    | error e' =>
      simp only [reduceStep, hk, bind, Except.bind, Except.error.injEq] at h
      subst h
      unfold setKind at hk
      by_cases hc : ctx.kind = .select ∨ ctx.kind = .insert
      · rw [if_pos hc] at hk
        exact absurd hk (by simp)
      · rw [if_neg hc] at hk
        simp only [Except.error.injEq] at hk
        exact Or.inr hk.symm
  | insRows rows =>
    cases hk : setKind ctx.kind .insert with
    | ok k => simp [reduceStep, hk, bind, Except.bind] at h
    | error e' =>
      simp only [reduceStep, hk, bind, Except.bind, Except.error.injEq] at h
      subst h
      unfold setKind at hk
      by_cases hc : ctx.kind = .select ∨ ctx.kind = .insert
      · rw [if_pos hc] at hk
        exact absurd hk (by simp)
      · rw [if_neg hc] at hk
        simp only [Except.error.injEq] at hk
        exact Or.inr hk.symm
  | del =>
    cases hk : setKind ctx.kind .delete with
    | ok k => simp [reduceStep, hk, bind, Except.bind] at h
    | error e' =>
      simp only [reduceStep, hk, bind, Except.bind, Except.error.injEq] at h
      subst h
      unfold setKind at hk
      by_cases hc : ctx.kind = .select ∨ ctx.kind = .delete
      · rw [if_pos hc] at hk
        exact absurd hk (by simp)
      · rw [if_neg hc] at hk
        simp only [Except.error.injEq] at hk
        exact Or.inr hk.symm

theorem reduceStep_error_no_junk {ctx : Ctx} {c : MethodCall} {e : CompileError}
    (h : reduceStep ctx c = .error e) (hj : callJunkB c = false) :
    e = .conflictingStatementKind := by
  rcases reduceStep_error h with hm | hc
  · subst hm
    cases c with
    | whr args =>
      cases hja : args.any isJunk with
      | true => simp [callJunkB, hja] at hj
      | false => simp [reduceStep, hja] at h
    | frm ts => simp [reduceStep] at h
    | ret cols => simp [reduceStep] at h
    | set assigns =>
      cases hk : setKind ctx.kind .update with
      | ok k => simp [reduceStep, hk, bind, Except.bind] at h
      | error e' =>
        simp only [reduceStep, hk, bind, Except.bind, Except.error.injEq] at h
        unfold setKind at hk
        by_cases hcc : ctx.kind = .select ∨ ctx.kind = .update
        · rw [if_pos hcc] at hk
          exact absurd hk (by simp)
        · rw [if_neg hcc] at hk
          simp only [Except.error.injEq] at hk
          rw [← hk] at h
          exact absurd h.symm (by simp)
    | insCols cols =>
      cases hk : setKind ctx.kind .insert with
      | ok k => simp [reduceStep, hk, bind, Except.bind] at h
      | error e' =>
        simp only [reduceStep, hk, bind, Except.bind, Except.error.injEq] at h
        unfold setKind at hk
        by_cases hcc : ctx.kind = .select ∨ ctx.kind = .insert
        · rw [if_pos hcc] at hk
          exact absurd hk (by simp)
        · rw [if_neg hcc] at hk
          simp only [Except.error.injEq] at hk
          rw [← hk] at h
          exact absurd h.symm (by simp)
    | insVal vals =>
      cases hk : setKind ctx.kind .insert with
      | ok k => simp [reduceStep, hk, bind, Except.bind] at h
      | error e' =>
        simp only [reduceStep, hk, bind, Except.bind, Except.error.injEq] at h
        unfold setKind at hk
        by_cases hcc : ctx.kind = .select ∨ ctx.kind = .insert
        · rw [if_pos hcc] at hk
          exact absurd hk (by simp)
        · rw [if_neg hcc] at hk
          simp only [Except.error.injEq] at hk
          rw [← hk] at h
          exact absurd h.symm (by simp)
    | insRows rows =>
      cases hk : setKind ctx.kind .insert with
      | ok k => simp [reduceStep, hk, bind, Except.bind] at h
      | error e' =>
        simp only [reduceStep, hk, bind, Except.bind, Except.error.injEq] at h
        unfold setKind at hk
        by_cases hcc : ctx.kind = .select ∨ ctx.kind = .insert
        · rw [if_pos hcc] at hk
          exact absurd hk (by simp)
        · rw [if_neg hcc] at hk
          simp only [Except.error.injEq] at hk
          rw [← hk] at h
          exact absurd h.symm (by simp)
    | del =>
      cases hk : setKind ctx.kind .delete with
      | ok k => simp [reduceStep, hk, bind, Except.bind] at h
      | error e' =>
        simp only [reduceStep, hk, bind, Except.bind, Except.error.injEq] at h
        unfold setKind at hk
        by_cases hcc : ctx.kind = .select ∨ ctx.kind = .delete
        · rw [if_pos hcc] at hk
          exact absurd hk (by simp)
        · rw [if_neg hcc] at hk
          simp only [Except.error.injEq] at hk
          rw [← hk] at h
          exact absurd h.symm (by simp)
  · exact hc

theorem reduceAux_error_no_junk {log : List MethodCall} {ctx0 : Ctx}
    {e : CompileError} (h : reduceAux ctx0 log = .error e)
    (hj : hasJunkB log = false) : e = .conflictingStatementKind := by
  induction log generalizing ctx0 with
  | nil => simp [reduceAux] at h
  | cons c cs ih =>
    have hcons : hasJunkB (c :: cs) = (callJunkB c || hasJunkB cs) := rfl
    rw [hcons, Bool.or_eq_false_iff] at hj
    obtain ⟨hj1, hj2⟩ := hj
    cases hstep : reduceStep ctx0 c with
    | error e' =>
      simp only [reduceAux, hstep, bind, Except.bind, Except.error.injEq] at h
      subst h
      exact reduceStep_error_no_junk hstep hj1
    | ok ctx1 =>
      simp only [reduceAux, hstep, bind, Except.bind] at h
      exact ih h hj2

theorem reduceStep_some_kind_no_error {ctx : Ctx} {c : MethodCall} {k : SKind}
    (hck : callKind c = some k) (hdisj : ctx.kind = .select ∨ ctx.kind = k)
    (e : CompileError) : reduceStep ctx c ≠ .error e := by
  cases c with
  | set assigns =>
    simp only [callKind, Option.some_inj] at hck
    subst hck
    simp [reduceStep, setKind, if_pos hdisj, bind, Except.bind]
  | insCols cols =>
    simp only [callKind, Option.some_inj] at hck
    subst hck
    simp [reduceStep, setKind, if_pos hdisj, bind, Except.bind]
  | insVal vals =>
    simp only [callKind, Option.some_inj] at hck
    subst hck
    simp [reduceStep, setKind, if_pos hdisj, bind, Except.bind]
  | insRows rows =>
    simp only [callKind, Option.some_inj] at hck
    subst hck
    simp [reduceStep, setKind, if_pos hdisj, bind, Except.bind]
  | del =>
    simp only [callKind, Option.some_inj] at hck
    subst hck
    simp [reduceStep, setKind, if_pos hdisj, bind, Except.bind]
  | frm ts => simp [callKind] at hck
  | whr args => simp [callKind] at hck
  | ret cols => simp [callKind] at hck

theorem reduceAux_error_all_agree {log : List MethodCall} {ctx0 : Ctx}
    {e : CompileError} (h : reduceAux ctx0 log = .error e)
    (hinv : ∀ k ∈ kindsOf log, ctx0.kind = .select ∨ ctx0.kind = k)
    (heq : ∀ k ∈ kindsOf log, ∀ j ∈ kindsOf log, k = j) :
    e = .malformedCondition := by
  induction log generalizing ctx0 with
  | nil => simp [reduceAux] at h
  | cons c cs ih =>
    cases hstep : reduceStep ctx0 c with
    | error e' =>
      simp only [reduceAux, hstep, bind, Except.bind, Except.error.injEq] at h
      subst h
      cases hck : callKind c with
      | some k =>
        have hmem : k ∈ kindsOf (c :: cs) := by
          simp [kindsOf, List.filterMap_cons, hck]
        exact absurd hstep (reduceStep_some_kind_no_error hck (hinv k hmem) e')
      | none =>
        cases c with
        | frm ts => simp [reduceStep] at hstep
        | ret cols => simp [reduceStep] at hstep
        | whr args =>
          cases hj : args.any isJunk with
          | true =>
            simp only [reduceStep, hj, if_true, ite_true,
              Except.error.injEq] at hstep
            exact hstep.symm
          | false => simp [reduceStep, hj] at hstep
        | set assigns => simp [callKind] at hck
        | insCols cols => simp [callKind] at hck
        | insVal vals => simp [callKind] at hck
        | insRows rows => simp [callKind] at hck
        | del => simp [callKind] at hck
    | ok ctx1 =>
      simp only [reduceAux, hstep, bind, Except.bind] at h
      have hsub : ∀ k ∈ kindsOf cs, k ∈ kindsOf (c :: cs) := by
        intro k hk
        simp only [kindsOf, List.filterMap_cons]
        cases hck : callKind c
        · exact hk
        · exact List.mem_cons_of_mem _ hk
      refine ih h ?_ (fun k hk j hj => heq k (hsub k hk) j (hsub j hj))
      intro k hk
      cases hck : callKind c with
      | none =>
        rw [reduceStep_kind_none hck hstep]
        exact hinv k (hsub k hk)
      | some j =>
        have hjmem : j ∈ kindsOf (c :: cs) := by
          simp [kindsOf, List.filterMap_cons, hck]
        have hkj : j = k := heq j hjmem k (hsub k hk)
        rw [(reduceStep_kind_some hck hstep).1, hkj]
        exact Or.inr rfl

theorem hasConflictB_false_all_agree {log : List MethodCall}
    (hc : hasConflictB log = false) :
    ∀ k ∈ kindsOf log, ∀ j ∈ kindsOf log, k = j := by
  intro k hk j hj
  rw [hasConflictB, List.any_eq_false] at hc
  have h1 := hc k hk
  rw [Bool.not_eq_true, List.any_eq_false] at h1
  have h2 := h1 j hj
  simpa using h2

theorem compile_of_reduce_error {log : List MethodCall} {e : CompileError}
    (h : reduce log = .error e) : compile log = .error e := by
  simp [compile, h, bind, Except.bind]

theorem compile_of_genFrags_error {log : List MethodCall} {ctx : Ctx}
    {e : CompileError} (hr : reduce log = .ok ctx)
    (hg : genFrags ctx = .error e) : compile log = .error e := by
  simp [compile, hr, hg, bind, Except.bind]

theorem compileFails_of_error {log : List MethodCall} {e : CompileError}
    (h : compile log = .error e) : compileFails log = true := by
  simp [compileFails, h]

theorem genFrags_noTarget {ctx : Ctx} (hk : ctx.kind ≠ .select)
    (hf : ctx.frm.isEmpty = true) :
    genFrags ctx = .error .emptyStatement := by
  cases hkind : ctx.kind with
  | select => exact absurd hkind hk
  | delete => simp [genFrags, hkind, hf]
  | update => simp [genFrags, hkind, hf]
  | insert => simp [genFrags, hkind, hf]

theorem genFrags_arity {ctx : Ctx} (hk : ctx.kind = .insert)
    (hf : ctx.frm.isEmpty = false) (hrows : ctx.insRows.isEmpty = true)
    (hbad : (ctx.insVals.any fun r => r.length != ctx.insCols.length) = true) :
    genFrags ctx = .error .arityMismatch := by
  simp [genFrags, hk, hf, insertFrag, hrows, hbad, bind, Except.bind]

/-- **C6.** Every structurally inconsistent method log — conflicting
statement kinds, insert column/value arity mismatch, a required target
missing, or a malformed condition input — causes compilation to raise the
corresponding error synchronously to the caller; compilation never
silently coerces such a log into a degenerate statement and never swallows
the failure. -/
theorem c6_structural_errors (log : List MethodCall) :
    (hasConflictB log = true → compileFails log = true) ∧
    (hasConflictB log = true → hasJunkB log = false →
      compile log = .error .conflictingStatementKind) ∧
    (hasJunkB log = true → compileFails log = true) ∧
    (hasJunkB log = true → hasConflictB log = false →
      compile log = .error .malformedCondition) ∧
    (arityBadB log = true → compileFails log = true) ∧
    (arityBadB log = true → noTargetB log = false →
      compile log = .error .arityMismatch) ∧
    (noTargetB log = true → compile log = .error .emptyStatement) := by
  refine ⟨?_, ?_, ?_, ?_, ?_, ?_, ?_⟩
  · intro hc
    cases hr : reduce log with
    | ok ctx => rw [reduce_ok_no_conflict hr] at hc; exact absurd hc (by simp)
    | error e => exact compileFails_of_error (compile_of_reduce_error hr)
  · intro hc hj
    cases hr : reduce log with
    | ok ctx => rw [reduce_ok_no_conflict hr] at hc; exact absurd hc (by simp)
    | error e =>
      have he : e = .conflictingStatementKind := reduceAux_error_no_junk hr hj
      rw [← he]
      exact compile_of_reduce_error hr
  · intro hj
    cases hr : reduce log with
    | ok ctx => rw [reduceAux_ok_no_junk hr] at hj; exact absurd hj (by simp)
    | error e => exact compileFails_of_error (compile_of_reduce_error hr)
  · intro hj hc
    cases hr : reduce log with
    | ok ctx => rw [reduceAux_ok_no_junk hr] at hj; exact absurd hj (by simp)
    | error e =>
      have he : e = .malformedCondition :=
        reduceAux_error_all_agree hr (fun k _ => Or.inl rfl)
          (hasConflictB_false_all_agree hc)
      rw [← he]
      exact compile_of_reduce_error hr
  · intro ha
    unfold arityBadB at ha
    cases hr : reduce log with
    | error e => rw [hr] at ha; exact absurd ha (by simp)
    | ok ctx =>
      rw [hr] at ha
      simp only [Bool.and_eq_true, beq_iff_eq] at ha
      cases hf : ctx.frm.isEmpty with
      | true =>
        exact compileFails_of_error (compile_of_genFrags_error hr
          (genFrags_noTarget (by rw [ha.1.1]; simp) hf))
      | false =>
        exact compileFails_of_error (compile_of_genFrags_error hr
          (genFrags_arity ha.1.1 hf ha.1.2 ha.2))
  · intro ha hnt
    unfold arityBadB at ha
    unfold noTargetB at hnt
    cases hr : reduce log with
    | error e => rw [hr] at ha; exact absurd ha (by simp)
    | ok ctx =>
      rw [hr] at ha
      rw [hr] at hnt
      have hnt' : (ctx.kind != SKind.select && ctx.frm.isEmpty) = false := hnt
      simp only [Bool.and_eq_true, beq_iff_eq] at ha
      have hksel : (ctx.kind != SKind.select) = true := by
        rw [ha.1.1]
        rfl
      have hf : ctx.frm.isEmpty = false := by
        cases hfe : ctx.frm.isEmpty with
        | false => rfl
        | true => rw [hksel, hfe] at hnt'; exact absurd hnt' (by simp)
      exact compile_of_genFrags_error hr (genFrags_arity ha.1.1 hf ha.1.2 ha.2)
  · intro hnt
    unfold noTargetB at hnt
    cases hr : reduce log with
    | error e => rw [hr] at hnt; exact absurd hnt (by simp)
    | ok ctx =>
      rw [hr] at hnt
      have hnt' : (ctx.kind != SKind.select && ctx.frm.isEmpty) = true := hnt
      simp only [Bool.and_eq_true, bne_iff_ne] at hnt'
      exact compile_of_genFrags_error hr (genFrags_noTarget hnt'.1 hnt'.2)

/-- Witness for C6 at four concrete inconsistent logs, one per error. -/
theorem c6_structural_errors_witness :
    compile [.set [("a", .int 1)], .del] =
      .error .conflictingStatementKind ∧
    compile [.frm ["t"], .whr [.junk .null]] =
      .error .malformedCondition ∧
    compile [.frm ["t"], .insCols ["a", "b"], .insVal [.int 1]] =
      .error .arityMismatch ∧
    compile [.del] = .error .emptyStatement := by
  refine ⟨(c6_structural_errors [.set [("a", .int 1)], .del]).2.1
      (by decide) (by decide),
    (c6_structural_errors [.frm ["t"], .whr [.junk .null]]).2.2.2.1
      (by decide) (by decide),
    (c6_structural_errors [.frm ["t"], .insCols ["a", "b"],
        .insVal [.int 1]]).2.2.2.2.2.1 (by decide) (by decide),
    (c6_structural_errors [.del]).2.2.2.2.2.2 (by decide)⟩

/-- The example rows of the C4 claim. -/
def c4Rows : List (List (String × Val)) :=
  [[("age", .int 13)], [("age", .null), ("lastName", .str "jo")]]

/-- **C4.** For object-shorthand inserts the emitted column set is the
union of keys across all row mappings in first-seen order; for each row, a
column whose key is absent or whose value is `undefined` emits the SQL
`DEFAULT` marker, while an explicit `null` emits SQL `null` — rows
`[{age: 13}, {age: null, lastName: 'jo'}]` against union columns
`[age, lastName]` yield value tuples `[13, DEFAULT]` and `[null, 'jo']`. -/
theorem c4_insert_default_filling :
    (firstSeenKeys c4Rows = ["age", "lastName"] ∧
      c4Rows.map (rowTuple (firstSeenKeys c4Rows)) =
        [[.val (.int 13), .dflt], [.val .null, .val (.str "jo")]]) ∧
    (∀ rows k, k ∈ firstSeenKeys rows ↔ ∃ r ∈ rows, k ∈ r.map Prod.fst) ∧
    (∀ rows, (firstSeenKeys rows).Nodup) ∧
    (∀ cols row, rowTuple cols row = cols.map (entryOf row)) ∧
    (∀ row k, (lookupKey row k = none ∨ lookupKey row k = some .undef) →
      entryOf row k = .dflt) ∧
    (∀ row k v, lookupKey row k = some v → v ≠ .undef →
      entryOf row k = .val v) ∧
    cellFrag .dflt = { text := [.str "default"], args := [] } ∧
    cellFrag (.val .null) = { text := [.str "null"], args := [] } := by
  refine ⟨⟨by decide, by decide⟩, fun rows k => mem_firstSeenKeys,
    nodup_firstSeenKeys, fun cols row => rfl, ?_, ?_, rfl, rfl⟩
  · intro row k h
    rcases h with h | h <;> simp [entryOf, h]
  · intro row k v h hv
    cases v with
    | undef => exact absurd rfl hv
    | int n => simp [entryOf, h]
    | str s => simp [entryOf, h]
    | bool b => simp [entryOf, h]
    | null => simp [entryOf, h]
    | raw t => simp [entryOf, h]

/-- Witness for C4: the general conjuncts applied at the example rows. -/
theorem c4_insert_default_filling_witness :
    ("lastName" ∈ firstSeenKeys c4Rows ↔
      ∃ r ∈ c4Rows, "lastName" ∈ r.map Prod.fst) ∧
    (firstSeenKeys c4Rows).Nodup ∧
    entryOf [("age", Val.int 13)] "lastName" = .dflt ∧
    entryOf [("age", Val.null)] "age" = .val .null := by
  refine ⟨c4_insert_default_filling.2.1 c4Rows "lastName",
    c4_insert_default_filling.2.2.1 c4Rows,
    c4_insert_default_filling.2.2.2.2.1 [("age", Val.int 13)] "lastName"
      (Or.inl (by decide)),
    c4_insert_default_filling.2.2.2.2.2.1 [("age", Val.null)] "age" Val.null
      (by decide) (by decide)⟩

/-- A context with a single where call, used to witness C10. -/
def c10Ctx : Ctx :=
  { emptyCtx with whr := [[.map [("a", .val (.int 1))]]] }

/-- Witness for C10: empty bucket yields no fragment; the sample context
yields a strict extension of `where `. -/
theorem c10_where_generator_witness :
    whereGenSrc emptyCtx = none ∧
    whereGenSrc c10Ctx = some ("where " ++ conditions c10Ctx.whr) ∧
    ("where " ++ conditions c10Ctx.whr) ≠ "where" ∧
    ("where " ++ conditions c10Ctx.whr) ≠ "where " := by
  have h1 := (c10_where_generator emptyCtx).1 rfl
  have h3 := (c10_where_generator c10Ctx).2.2.1 (by decide) (by decide)
  have h5 := (c10_where_generator c10Ctx).2.2.2.2
    ("where " ++ conditions c10Ctx.whr) h3 (by decide)
  exact ⟨h1, h3, h5.2.2.1, h5.2.2.2⟩

/-- **C2 (counterexample).** The claim as stated is false on the code: the
log `[from "where"]` contains no where-kind call, yet its compiled text
`select * from where` contains the substring `where` (supplied by the
caller's table name). -/
theorem c2_counterexample :
    noWhrB [MethodCall.frm ["where"]] = true ∧
    compiledContainsWhere [MethodCall.frm ["where"]] = true := by
  decide

/-- **C2 (amended).** For every method log containing no where-kind calls
whose caller-supplied strings do not themselves contain the substring
`where`, the compiled statement's text does not contain `where`; more
generally, an empty mapping or an empty call list for a condition clause
yields no fragment at all for that clause — never an empty-parenthesis or
empty-keyword fragment. -/
theorem c2_no_where_without_where_calls :
    (∀ log stmt, noWhrB log = true →
      (∀ s ∈ argStrings log, occursIn wpat s.data = false) →
      compile log = .ok stmt →
      occursIn wpat (charsOfS stmt.text) = false) ∧
    fromObjectShorthand [] = none ∧
    whereCallNode [] = none ∧
    (∀ whr, whereNodes whr = [] → whereFrag whr = none) ∧
    whereFrag [[], [.map []]] = none := by
  refine ⟨?_, rfl, rfl, fun whr h => whereFrag_of_no_nodes h, by decide⟩
  intro log stmt hw hargs hok
  rcases compile_ok_inversion hok with ⟨ctx, frags, hr, hg, rfl⟩
  have hwhr : ctx.whr = [] := reduceAux_whr_const hr hw
  have hstr : ∀ s ∈ ctxStrings ctx, occursIn wpat s.data = false := by
    intro s hs
    rcases reduceAux_strings hr s hs with h0 | hA
    · simp [ctxStrings, emptyCtx, cmap] at h0
    · exact hargs s hA
  have hfr := occ_genFrags hg hwhr hstr
  have hjoin : occursIn wpat
      (charsOfQ (joinFrags (.str " ") frags).text) = false := by
    refine occ_joinFrags
      (by decide : (" " : String).data = ' ' :: []) (by decide)
      ?_ frags hfr
    intro x hx
    exact absurd hx (List.not_mem_nil x)
  show occursIn wpat
    (charsOfS (numberToks (joinFrags (.str " ") frags).text 1)) = false
  exact charsOfS_numberToks (joinFrags (.str " ") frags).text.length
    (joinFrags (.str " ") frags).text 1 (Nat.le_refl _) hjoin

/-- A sample where-free log used to witness the amended C2. -/
def c2WLog : List MethodCall :=
  [.frm ["person"], .ret ["age"], .set [("age", .raw "age + 1")]]

/-- The statement compiled from `c2WLog`. -/
def c2WStmt : Stmt := (compile c2WLog).toOption.getD { text := [], args := [] }

/-- Witness for the amended C2 at a concrete log with a raw-text
argument. -/
theorem c2_no_where_without_where_calls_witness :
    compile c2WLog = Except.ok c2WStmt ∧
    occursIn wpat (charsOfS c2WStmt.text) = false ∧
    whereFrag [[], [.map []]] = none := by
  refine ⟨by decide, ?_, c2_no_where_without_where_calls.2.2.2.2⟩
  exact c2_no_where_without_where_calls.1 c2WLog c2WStmt (by decide)
    (by decide) (by decide)

end Sqorn
